import Mathlib

/-!
Verification development for the sparse vector/matrix core of the autodiff
repository (Go sources: vector_sparse_template.in, matrix_sparse_template.in).

Embedding conventions:
- Go `int` indices and dimensions are embedded as `ℤ`; float64 values as `ℚ`
  (the claims under study only copy, compare and zero values, so no rounding
  behaviour is involved).
- The sparse containers store *pointers* to scalars (Go `map[int]*Scalar`).
  Pointers are embedded as natural numbers addressing an explicit `Store`;
  a stored `none` is Go's nil pointer (which `Swap` on maps can create).
- Functions that can panic in Go (nil dereference, out-of-range access)
  return `Option`; `none` is the panic.
-/

namespace Autodiff

/-- Modelled from the spec: the differentiable scalar element kind (spec section 3,
"Differentiable Scalar"); the scalar source files of the repository are not among
the sources, so the scalar is modelled as a record of a value, an AD order, a
derivative vector and a Hessian matrix, with float64 components embedded as `ℚ`. -/
structure SScalar where
  value : ℚ
  order : ℕ
  deriv : List ℚ
  hess  : List (List ℚ)
deriving DecidableEq

/-- Modelled from the spec: accessor GetValue of a scalar. -/
def SScalar.getValue (s : SScalar) : ℚ := s.value

/-- Modelled from the spec: accessor GetN, the number of free variables. -/
def SScalar.getN (s : SScalar) : ℕ := s.deriv.length

/-- Modelled from the spec: accessor GetDerivative. -/
def SScalar.getDerivative (s : SScalar) (i : ℕ) : ℚ := s.deriv.getD i 0

/-- Modelled from the spec: accessor GetHessian. -/
def SScalar.getHessian (s : SScalar) (i j : ℕ) : ℚ := (s.hess.getD i []).getD j 0

/-- Modelled from the spec: NULL_SCALAR, the all-zero scalar a mutable access
vivifies (order-0 zero value, no derivative data). -/
def NULL_SCALAR : SScalar := ⟨0, 0, [], []⟩

/-- Modelled from the spec: Equals on scalars compares the values within the given
tolerance (the scalar sources are not among the sources here). -/
def SScalar.equalsVal (a b : ℚ) (epsilon : ℚ) : Bool := |a - b| < epsilon

/-- Pointers into the scalar store. -/
abbrev Ptr := ℕ

/-- The heap of scalar objects: an association list from pointers to scalars plus
the next fresh pointer. -/
structure Store where
  mem  : List (Ptr × SScalar)
  next : Ptr
deriving DecidableEq

/-- Dereference a pointer. -/
def Store.get? (σ : Store) (p : Ptr) : Option SScalar := σ.mem.lookup p

/-- Overwrite the scalar object at pointer p. -/
def Store.setPtr (σ : Store) (p : Ptr) (s : SScalar) : Store :=
  { σ with mem := σ.mem.map (fun e => if e.1 = p then (p, s) else e) }

/-- Allocate a fresh scalar object. -/
def Store.alloc (σ : Store) (s : SScalar) : Store × Ptr :=
  ({ mem := (σ.next, s) :: σ.mem, next := σ.next + 1 }, σ.next)

/-- The store binds each pointer at most once and every live pointer lies below
the allocation frontier. -/
def Store.Wf (σ : Store) : Prop :=
  (σ.mem.map Prod.fst).Nodup ∧ ∀ e ∈ σ.mem, e.1 < σ.next

/-- Translated from src/vector_sparse_template.in lines 656-677 (nullScalar): a
scalar is a structural zero when its value is exactly 0 and, at order at least 1,
every derivative component is exactly 0, and at order at least 2, every Hessian
component is exactly 0. -/
def nullScalar (s : SScalar) : Bool :=
  if s.getValue ≠ 0 then false
  else
    (if s.order ≥ 1 then
      (List.range s.getN).all (fun i => s.getDerivative i = 0)
     else true) &&
    (if s.order ≥ 2 then
      (List.range s.getN).all (fun i =>
        (List.range s.getN).all (fun j => s.getHessian i j = 0))
     else true)

/-! The channel-variant index set, from the source. -/

/-- Translated from src/vector_sparse_template.in lines 1086-1089 (INDEX_SLICE):
a list of indices plus a sortedness flag. -/
structure INDEX_SLICE where
  values   : List ℤ
  isSorted : Bool
deriving DecidableEq

/-- Translated from src/vector_sparse_template.in lines 1091-1096 (INDEX_SLICE.sort):
sort the values ascending unless already marked sorted. -/
def INDEX_SLICE.sortIdx (s : INDEX_SLICE) : INDEX_SLICE :=
  if s.isSorted = false then
    { values := List.insertionSort (· ≤ ·) s.values, isSorted := true }
  else s

/-- Translated from src/vector_sparse_template.in lines 1098-1101 (INDEX_SLICE.insert):
append and mark unsorted. -/
def INDEX_SLICE.insertIdx (s : INDEX_SLICE) (i : ℤ) : INDEX_SLICE :=
  { values := s.values ++ [i], isSorted := false }

/-- Translated from src/vector_sparse_template.in lines 1111-1116 (INDEX_SLICE.clone):
the zero-valued struct is built (its isSorted field is the zero value false) and
only the values sequence is copied into it. -/
def INDEX_SLICE.clone (s : INDEX_SLICE) : INDEX_SLICE :=
  { values := s.values, isSorted := false }

/-! The iterator-variant sparse index structure. -/

/-- Modelled from the spec: the type vectorSparseIndex backing the iterator-variant
sparse vector is not among the sources (only its callers are); spec sections 3 and
4.1 describe it as a values sequence plus a sorted flag, with insert appending and
marking unsorted, delete removing the index, iteration sorting on demand and then
walking ascending (optionally from a start bound), and clone copying the values
sequence and the sortedness flag. -/
structure SpIndex where
  values : List ℤ
  sorted : Bool
deriving DecidableEq

/-- Modelled from the spec: insert appends and marks the structure unsorted. -/
def SpIndex.insertIdx (s : SpIndex) (i : ℤ) : SpIndex :=
  { values := s.values ++ [i], sorted := false }

/-- Modelled from the spec: delete removes the index from the values sequence,
preserving the sortedness flag. -/
def SpIndex.deleteIdx (s : SpIndex) (i : ℤ) : SpIndex :=
  { s with values := s.values.erase i }

/-- Modelled from the spec: clone copies the values sequence and the sortedness
flag. -/
def SpIndex.cloneIdx (s : SpIndex) : SpIndex := s

/-- The ascending sequence an iterator traverses: the values, sorted on demand. -/
def SpIndex.sortedValues (s : SpIndex) : List ℤ :=
  if s.sorted then s.values else List.insertionSort (· ≤ ·) s.values

/-- Modelled from the spec: iteration sorts on demand; the structure afterwards. -/
def SpIndex.afterSort (s : SpIndex) : SpIndex :=
  { values := s.sortedValues, sorted := true }

/-! The iterator-variant sparse vector, from the source. -/

/-- Translated from src/vector_sparse_template.in lines 48-52 (the vector type):
an embedded sparse index, a map from indices to scalar pointers, and the declared
dimension. A stored `none` is a nil pointer (such entries are created only by
map swaps). -/
structure SparseVec where
  index   : SpIndex
  entries : List (ℤ × Option Ptr)
  n       : ℤ
deriving DecidableEq

/-- Go map lookup: `some c` when the key is present (c the stored pointer, possibly
nil), `none` when absent. -/
def SparseVec.cell? (v : SparseVec) (k : ℤ) : Option (Option Ptr) :=
  v.entries.lookup k

/-- Go map read with zero value: the stored pointer, or nil when the key is
absent (Go `obj.values[i]` in value position). -/
def SparseVec.cellD (v : SparseVec) (k : ℤ) : Option Ptr :=
  (v.cell? k).getD none

/-- Go map write: replace the binding of k, or append a fresh one. -/
def SparseVec.setCell (v : SparseVec) (k : ℤ) (c : Option Ptr) : SparseVec :=
  { v with entries :=
      if (v.entries.lookup k).isSome then
        v.entries.map (fun e => if e.1 = k then (k, c) else e)
      else v.entries ++ [(k, c)] }

/-- Go map delete: remove the binding of k. -/
def SparseVec.delCell (v : SparseVec) (k : ℤ) : SparseVec :=
  { v with entries := v.entries.eraseP (fun e => e.1 == k) }

/-- Translated from src/vector_sparse_template.in lines 86-88 (NIL_VECTOR): empty
index, empty map, dimension n. -/
def NIL_VECTOR (n : ℤ) : SparseVec := ⟨⟨[], false⟩, [], n⟩

/-- Translated from src/vector_sparse_template.in lines 347-349 (Swap): the Go
parallel map assignment reads both cells (absent reads give nil) and then writes
both keys, so absent keys become present, bound to nil. -/
def SparseVec.swapCells (v : SparseVec) (i j : ℤ) : SparseVec :=
  let vi := v.cellD i
  let vj := v.cellD j
  (v.setCell i vj).setCell j vi

/-- Observation of one map cell under a store: an absent key reads as the zero
scalar, a nil binding panics when dereferenced, a live pointer reads its
scalar's value (a dangling pointer also panics). -/
def readCell (σ : Store) : Option (Option Ptr) → Option ℚ
  | none => some 0
  | some none => none
  | some (some p) => (σ.get? p).map SScalar.value

/-- Translated from src/vector_sparse_template.in lines 162-171 (ValueAt) and
173-182 (ConstAt) followed by GetValue: bounds panic, then the stored scalar's
value, 0 for an absent index; dereferencing a nil entry panics. -/
def SparseVec.constAtVal? (v : SparseVec) (σ : Store) (k : ℤ) : Option ℚ :=
  if k < 0 ∨ v.n ≤ k then none
  else readCell σ (v.cell? k)

/-- Translated from src/vector_sparse_template.in lines 254-266 (AT): bounds
panic; an existing binding is returned as is (possibly nil), an absent index is
vivified with a freshly allocated zero scalar registered in the map and index. -/
def SparseVec.atRef (v : SparseVec) (σ : Store) (k : ℤ) :
    Option (SparseVec × Store × Option Ptr) :=
  if k < 0 ∨ v.n ≤ k then none
  else
    match v.cell? k with
    | some c => some (v, σ, c)
    | none =>
      let (σ', p) := σ.alloc NULL_SCALAR
      some ({ v with entries := v.entries ++ [(k, some p)],
                     index := v.index.insertIdx k }, σ', some p)

/-- Modelled from the spec: SetValue on a scalar overwrites its value component. -/
def SScalar.setValue (s : SScalar) (q : ℚ) : SScalar := { s with value := q }

/-- A mutable access v.AT(k).SetValue(q): vivify, then write the value through the
returned reference (panics on bounds violation, nil entry, or dangling pointer). -/
def SparseVec.atSetValue (v : SparseVec) (σ : Store) (k : ℤ) (q : ℚ) :
    Option (SparseVec × Store) :=
  match v.atRef σ k with
  | none => none
  | some (_, _, none) => none
  | some (v', σ', some p) =>
    match σ'.get? p with
    | none => none
    | some s => some (v', σ'.setPtr p (s.setValue q))

/-- Translated from src/vector_sparse_template.in lines 106-113 (Clone): a nil
vector of the same dimension, each stored scalar deep-copied into a fresh
allocation under the same key, and the index cloned. Go map iteration order is
not specified; the model copies in the entry-list order. -/
def SparseVec.cloneLoop (σ : Store) :
    List (ℤ × Option Ptr) → Option (List (ℤ × Option Ptr) × Store)
  | [] => some ([], σ)
  | (k, c) :: rest =>
    match c with
    | none => none
    | some p =>
      match σ.get? p with
      | none => none
      | some s =>
        let (σ', p') := σ.alloc s
        match SparseVec.cloneLoop σ' rest with
        | none => none
        | some (es, σ'') => some ((k, some p') :: es, σ'')

/-- Translated from src/vector_sparse_template.in lines 106-113 (Clone). -/
def SparseVec.clone (v : SparseVec) (σ : Store) : Option (SparseVec × Store) :=
  match SparseVec.cloneLoop σ v.entries with
  | none => none
  | some (es, σ') => some (⟨v.index.cloneIdx, es, v.n⟩, σ')

/-- Translated from src/vector_sparse_template.in lines 293-304 (Slice, iterator
variant): a nil vector of length j-i; the index iterator from i is walked, and
the walk breaks at the first index at or beyond j (ascending order makes this the
whole window); each window entry is rebound at k-i. The map read
`obj.values[k]` copies the stored pointer, so the slice aliases the original's
scalar objects. -/
def SparseVec.sliceGo (v : SparseVec) (i j : ℤ) : SparseVec :=
  let ks := ((v.index.sortedValues).filter (fun k => i ≤ k)).takeWhile (fun k => k < j)
  { index := ks.foldl (fun s k => s.insertIdx (k - i)) ⟨[], false⟩,
    entries := ks.map (fun k => (k - i, v.cellD k)),
    n := j - i }

/-- Translated from src/vector_sparse_template.in lines 398-413 (the swap step of
Permute at loop position i with target p = pi[i]): when p differs from i and
p > i, the two cells are exchanged, with the three presence cases handled
explicitly so that no stale binding is left behind. -/
def SparseVec.permuteSwapStep (v : SparseVec) (i : ℕ) (p : ℤ) : SparseVec :=
  if (i : ℤ) ≠ p ∧ p > (i : ℤ) then
    let ok1 := (v.cell? i).isSome
    let ok2 := (v.cell? p).isSome
    if ok1 ∧ ok2 then (v.setCell p (v.cellD i)).setCell i (v.cellD p)
    else if ok1 then (v.setCell p (v.cellD i)).delCell i
    else if ok2 then (v.setCell i (v.cellD p)).delCell p
    else v
  else v

/-- Translated from src/vector_sparse_template.in lines 394-414 (the Permute scan):
walk the remaining suffix of pi (position i first); reject an out-of-range target
immediately, otherwise perform the swap step and continue. The dimension check
before the loop makes the loop bound obj.n equal to the length of pi. -/
def SparseVec.permuteLoop (n : ℤ) (v : SparseVec) (i : ℕ) :
    List ℤ → SparseVec × Option String
  | [] => (v, none)
  | p :: rest =>
    if p < 0 ∨ n ≤ p then (v, some "Permute(): invalid permutation")
    else SparseVec.permuteLoop n (v.permuteSwapStep i p) (i + 1) rest

/-- Translated from src/vector_sparse_template.in lines 389-420 (Permute, iterator
variant): length check, the swap scan, and on success a rebuild of the sparse
index by inserting every pi value into a fresh index structure. -/
def SparseVec.permuteGo (v : SparseVec) (pi : List ℤ) : SparseVec × Option String :=
  if (pi.length : ℤ) ≠ v.n then
    (v, some "Permute(): permutation vector has invalid length!")
  else
    match SparseVec.permuteLoop v.n v 0 pi with
    | (v', some e) => (v', some e)
    | (v', none) =>
      ({ v' with index := pi.foldl (fun s k => s.insertIdx k) ⟨[], false⟩ }, none)

/-! The sparse matrix adapter, from the source. -/

/-- Translated from src/matrix_sparse_template.in lines 51-62 (the matrix type):
a backing sparse vector, logical and backing dimensions, slice offsets, the
transposition flag and two scratch vectors. -/
structure SparseMat where
  values     : SparseVec
  rows       : ℤ
  cols       : ℤ
  rowOffset  : ℤ
  rowMax     : ℤ
  colOffset  : ℤ
  colMax     : ℤ
  transposed : Bool
  tmp1       : SparseVec
  tmp2       : SparseVec
deriving DecidableEq

/-- Translated from src/matrix_sparse_template.in lines 163-172 (index): bounds
panic, then the affine map into the backing vector, chosen by orientation. -/
def SparseMat.indexGo? (m : SparseMat) (i j : ℤ) : Option ℤ :=
  if i < 0 ∨ j < 0 ∨ m.rows ≤ i ∨ m.cols ≤ j then none
  else if m.transposed then some ((m.colOffset + j) * m.rowMax + (m.rowOffset + i))
  else some ((m.rowOffset + i) * m.colMax + (m.colOffset + j))

/-- Translated from src/matrix_sparse_template.in lines 174-184 (ij): the claimed
inverse of the affine index map, using Go's truncated integer division and
remainder. -/
def SparseMat.ijGo (m : SparseMat) (k : ℤ) : ℤ × ℤ :=
  if m.transposed then
    ((Int.tmod k m.colMax) - m.colOffset, (Int.tdiv k m.colMax) - m.rowOffset)
  else
    ((Int.tmod k m.rowMax) - m.rowOffset, (Int.tdiv k m.rowMax) - m.colOffset)

/-- Translated from src/matrix_sparse_template.in lines 121-132 (initTmp): each
scratch vector is reallocated when too small, otherwise cropped by Slice. The
Go nil test on a scratch vector is folded into the dimension test (a nil vector
has dimension 0 in this model). -/
def SparseMat.initTmp (m : SparseMat) : SparseMat :=
  { m with
    tmp1 := if m.tmp1.n < m.rows then NIL_VECTOR m.rows else m.tmp1.sliceGo 0 m.rows,
    tmp2 := if m.tmp2.n < m.cols then NIL_VECTOR m.cols else m.tmp2.sliceGo 0 m.cols }

/-- Translated from src/matrix_sparse_template.in lines 82-93 (NULL_MATRIX):
a backing vector of dimension rows*cols, full window, scratch vectors set up. -/
def NULL_MATRIX (rows cols : ℤ) : SparseMat :=
  SparseMat.initTmp
    { values := NIL_VECTOR (rows * cols), rows := rows, cols := cols,
      rowOffset := 0, rowMax := rows, colOffset := 0, colMax := cols,
      transposed := false, tmp1 := NIL_VECTOR 0, tmp2 := NIL_VECTOR 0 }

/-- Translated from src/matrix_sparse_template.in lines 333-339 (ValueAt/ConstAt
followed by GetValue): the value read at logical position (i,j), through the
affine index map and the backing vector; panics propagate as none. -/
def SparseMat.constAtVal? (m : SparseMat) (σ : Store) (i j : ℤ) : Option ℚ :=
  (m.indexGo? i j).bind (fun k => m.values.constAtVal? σ k)

/-- Translated from src/matrix_sparse_template.in lines 288-300 (T): a new header
with the transposition flag flipped and the row/column metadata and scratch
vectors exchanged, sharing the backing vector. -/
def SparseMat.T (m : SparseMat) : SparseMat :=
  { values := m.values, rows := m.cols, cols := m.rows,
    transposed := !m.transposed,
    rowOffset := m.colOffset, rowMax := m.colMax,
    colOffset := m.rowOffset, colMax := m.rowMax,
    tmp1 := m.tmp2, tmp2 := m.tmp1 }

/-- Translated from src/matrix_sparse_template.in lines 138-150 (Clone): deep
copies of the backing vector and both scratch vectors, same metadata. -/
def SparseMat.clone (m : SparseMat) (σ : Store) : Option (SparseMat × Store) :=
  match m.values.clone σ with
  | none => none
  | some (v', σ1) =>
    match m.tmp1.clone σ1 with
    | none => none
    | some (t1, σ2) =>
      match m.tmp2.clone σ2 with
      | none => none
      | some (t2, σ3) =>
        some ({ m with values := v', tmp1 := t1, tmp2 := t2 }, σ3)

/-- Translated from src/matrix_sparse_template.in lines 313-315 (the cycle
successor of Tip): a position other than mn-1 moves by multiplication with rows
modulo mn-1 (Go truncated remainder); mn-1 stays in place. -/
def sigmaGo (rows mn k : ℤ) : ℤ :=
  if k ≠ mn - 1 then Int.tmod (rows * k) (mn - 1) else k

/-- Translated from src/matrix_sparse_template.in lines 312-323 (the inner cycle
loop of Tip): follow the cycle successor, record the landed position in the
visited array, swap it with the cycle leader on the backing vector, and stop on
return to the leader. The visited array is kept as the list of recorded
positions, and a landing outside [0, mn) models the out-of-range panic of the
visited write; the source loop is unbounded, so fuel counts iterations and the
theorems show it is never exhausted. -/
def tipInner (rows mn cycle : ℤ) :
    ℕ → ℤ → List ℤ → SparseVec → Option (List ℤ × SparseVec)
  | 0, _, _, _ => none
  | fuel + 1, k, visited, v =>
    let k1 := sigmaGo rows mn k
    if k1 < 0 ∨ mn ≤ k1 then none
    else
      let v1 := v.swapCells k1 cycle
      if k1 = cycle then some (k1 :: visited, v1)
      else tipInner rows mn cycle fuel k1 (k1 :: visited) v1

/-- Translated from src/matrix_sparse_template.in lines 306-324 (the outer loop
of Tip): each candidate leader in 1..mn-1 not yet visited starts an inner cycle
walk from itself. -/
def tipOuter (rows mn : ℤ) :
    List ℤ → List ℤ → SparseVec → Option (List ℤ × SparseVec)
  | [], visited, v => some (visited, v)
  | cycle :: rest, visited, v =>
    if visited.contains cycle then tipOuter rows mn rest visited v
    else
      match tipInner rows mn cycle (mn.toNat + 1) cycle visited v with
      | none => none
      | some (visited1, v1) => tipOuter rows mn rest visited1 v1

/-- Translated from src/matrix_sparse_template.in lines 302-329 (Tip): run the
in-place cycle swaps over the backing vector, then exchange the row and column
metadata and the scratch vectors. The transposition flag is NOT flipped. -/
def SparseMat.tipGo (m : SparseMat) : Option SparseMat :=
  let mn := m.values.n
  match tipOuter m.rows mn (((List.range mn.toNat).map Int.ofNat).tail)
      [] m.values with
  | none => none
  | some (_, v1) =>
    some { m with
      values := v1,
      rows := m.cols, cols := m.rows,
      rowOffset := m.colOffset, colOffset := m.rowOffset,
      rowMax := m.colMax, colMax := m.rowMax,
      tmp1 := m.tmp2, tmp2 := m.tmp1 }

/-- Invariant of Tip's outer loop: the visited positions lie in [1, mn), are
closed under the cycle successor (so they form a union of complete cycles), the
backing cell of every visited position has been moved to its successor
position, and every other in-range cell still holds its original binding. -/
def TipInv (rows mn : ℤ) (v0 : SparseVec) (vis : List ℤ) (v : SparseVec) : Prop :=
  (∀ p ∈ vis, 1 ≤ p ∧ p < mn) ∧
  (∀ p ∈ vis, sigmaGo rows mn p ∈ vis) ∧
  (∀ p ∈ vis, v.cellD (sigmaGo rows mn p) = v0.cellD p) ∧
  (∀ p, 0 ≤ p → p < mn → p ∉ vis → v.cellD p = v0.cellD p)

/-- Well-formedness of a sparse vector against a store: map keys are distinct,
the sparse index mirrors the key set (as a multiset), a set sortedness flag is
truthful, and every stored entry is an in-range key bound to a live, non-nil
pointer. -/
def WfVec (v : SparseVec) (σ : Store) : Prop :=
  (v.entries.map Prod.fst).Nodup ∧
  v.index.values.Perm (v.entries.map Prod.fst) ∧
  (v.index.sorted = true → v.index.values.Sorted (· ≤ ·)) ∧
  (∀ e ∈ v.entries, 0 ≤ e.1 ∧ e.1 < v.n ∧
    ∃ p, e.2 = some p ∧ p < σ.next ∧ (σ.get? p).isSome)

/-- Well-formedness of a sparse matrix: its backing vector and both scratch
vectors are well-formed. -/
def WfMat (m : SparseMat) (σ : Store) : Prop :=
  WfVec m.values σ ∧ WfVec m.tmp1 σ ∧ WfVec m.tmp2 σ

/-! Text-table import, from the source. Lines of the input file are embedded as
lists of characters. -/

/-- Outcome of a Go method that can return an error or panic: ok with the final
state, a returned error together with the state the caller observes, or a
panic. -/
inductive GoOutcome (α : Type) where
  | ok (a : α) : GoOutcome α
  | goErr (a : α) : GoOutcome α
  | goFatal : GoOutcome α
deriving DecidableEq

/-- Split a character list at every separator occurrence (Go strings.Split keeps
empty parts). -/
def splitOnPred (p : Char → Bool) : List Char → List (List Char)
  | [] => [[]]
  | c :: rest =>
    let r := splitOnPred p rest
    if p c then [] :: r
    else
      match r with
      | [] => [[c]]
      | h :: t => (c :: h) :: t

/-- Go strings.Fields: split around whitespace runs, dropping empty parts. -/
def fieldsGo (cs : List Char) : List (List Char) :=
  (splitOnPred (fun c => c = ' ' ∨ c = '\t' ∨ c = '\n' ∨ c = '\r') cs).filter (· ≠ [])

/-- Accumulate a decimal digit string. -/
def digitsAux : List Char → ℕ → Option ℕ
  | [], acc => some acc
  | c :: rest, acc =>
    if c.isDigit then digitsAux rest (10 * acc + (c.toNat - 48)) else none

/-- Value of a nonempty all-digit string. -/
def digitsVal? (cs : List Char) : Option ℕ :=
  if cs = [] then none else digitsAux cs 0

/-- Go strconv.ParseInt base 10: optional sign then decimal digits (64-bit
overflow is not modelled; the claims do not exercise it). -/
def parseIntGo? : List Char → Option ℤ
  | '+' :: rest => (digitsVal? rest).map Int.ofNat
  | '-' :: rest => (digitsVal? rest).map (fun m => -(m : ℤ))
  | cs => (digitsVal? cs).map Int.ofNat

/-- Go strconv.ParseFloat, restricted to the plain decimal forms
[sign]digits[.digits] (the exponent and special forms Go additionally accepts
are not modelled; the import claims do not depend on the accepted language). -/
def parseFloatGo? (cs : List Char) : Option ℚ :=
  let body : List Char → Option ℚ := fun r =>
    let ip := r.takeWhile (fun c => c ≠ '.')
    let rest := r.dropWhile (fun c => c ≠ '.')
    match rest with
    | [] => (digitsVal? ip).map (fun a => (a : ℚ))
    | _ :: fp =>
      if fp.contains '.' then none
      else
        match digitsVal? ip, digitsVal? fp with
        | some a, some b => some ((a : ℚ) + (b : ℚ) / (10 : ℚ) ^ fp.length)
        | _, _ => none
  match cs with
  | '+' :: rest => body rest
  | '-' :: rest => (body rest).map Neg.neg
  | _ => body cs

/-- Modelled from the spec: NEW_SCALAR, the scalar constructor from a literal
value (order 0, no derivative data). -/
def NEW_SCALAR (q : ℚ) : SScalar := ⟨q, 0, [], []⟩

/-- Translated from src/vector_sparse_template.in lines 63-75 (the NEW_VECTOR
loop): an index at or above the dimension panics, a key already stored panics,
and a nonzero value is stored and registered in the index. -/
def newVectorLoop (n : ℤ) (σ : Store) (v : SparseVec) :
    List (ℤ × ℚ) → Option (SparseVec × Store)
  | [] => some (v, σ)
  | (k, q) :: rest =>
    if n ≤ k then none
    else if (v.cell? k).isSome then none
    else if q ≠ 0 then
      let (σ', p) := σ.alloc (NEW_SCALAR q)
      newVectorLoop n σ'
        { v with entries := v.entries ++ [(k, some p)],
                 index := v.index.insertIdx k } rest
    else newVectorLoop n σ v rest

/-- Translated from src/vector_sparse_template.in lines 58-77 (NEW_VECTOR):
mismatched list lengths panic, then the loop above runs over a nil vector. -/
def NEW_VECTOR_alloc (σ : Store) (indices : List ℤ) (values : List ℚ) (n : ℤ) :
    Option (SparseVec × Store) :=
  if indices.length ≠ values.length then none
  else newVectorLoop n σ (NIL_VECTOR n) (indices.zip values)

/-- Translated from src/vector_sparse_template.in lines 592-613 (the per-line
field loop of Import, iterator variant): each field must split at the colon into
exactly two parts, an integer index (tracking the running dimension as the
largest index plus one) and a float value; any violation is the
invalid-sparse-table error. -/
def importFields (acc : List ℤ × List ℚ × ℤ) :
    List (List Char) → Option (List ℤ × List ℚ × ℤ)
  | [] => some acc
  | f :: rest =>
    match splitOnPred (fun c => c = ':') f with
    | [s1, s2] =>
      match parseIntGo? s1, parseFloatGo? s2 with
      | some k, some q =>
        importFields (acc.1 ++ [k], acc.2.1 ++ [q], max acc.2.2 (k + 1)) rest
      | _, _ => none
    | _ => none

/-- Translated from src/vector_sparse_template.in lines 584-614 (the line scan of
Import, iterator variant): blank lines are skipped; any further nonempty line
while the target map is nonempty is the invalid-sparse-table error (the target is
never cleared in this variant, so a target with prior contents trips this check
on the first nonempty line); fields accumulate into local lists only. -/
def vImportScan (obj : SparseVec) :
    List (List Char) → (List ℤ × List ℚ × ℤ) → Option (List ℤ × List ℚ × ℤ)
  | [], acc => some acc
  | line :: rest, acc =>
    let fs := fieldsGo line
    if fs = [] then vImportScan obj rest acc
    else if obj.entries ≠ [] then none
    else
      match importFields acc fs with
      | none => none
      | some acc' => vImportScan obj rest acc'

/-- Translated from src/vector_sparse_template.in lines 557-617 (Import, iterator
variant): the scan accumulates into local lists; on any error the method returns
with the target untouched; only on success is the target overwritten with a
freshly built vector. -/
def vImportGo (v : SparseVec) (σ : Store) (lines : List (List Char)) :
    GoOutcome (SparseVec × Store) :=
  match vImportScan v lines ([], [], 0) with
  | none => .goErr (v, σ)
  | some (indices, values, n) =>
    match NEW_VECTOR_alloc σ indices values n with
    | none => .goFatal
    | some (r, σ') => .ok (r, σ')

/-- Translated from src/matrix_sparse_template.in lines 373-375 (AT) composed with
SetValue: write a value at a logical position through the backing vector,
vivifying the cell; bounds violations panic. -/
def SparseMat.atSetValue (m : SparseMat) (σ : Store) (i j : ℤ) (q : ℚ) :
    Option (SparseMat × Store) :=
  match m.indexGo? i j with
  | none => none
  | some k =>
    match m.values.atSetValue σ k q with
    | none => none
    | some (v', σ') => some ({ m with values := v' }, σ')

/-- Translated from src/matrix_sparse_template.in lines 72-78 (the NEW_MATRIX
loop): each nonzero value is written at its (row, col) position; out-of-range
positions panic. -/
def newMatrixLoop (σ : Store) (m : SparseMat) :
    List (ℤ × ℤ × ℚ) → Option (SparseMat × Store)
  | [] => some (m, σ)
  | (a, b, q) :: rest =>
    if q ≠ 0 then
      match m.atSetValue σ a b q with
      | none => none
      | some (m', σ') => newMatrixLoop σ' m' rest
    else newMatrixLoop σ m rest

/-- Translated from src/matrix_sparse_template.in lines 67-80 (NEW_MATRIX): a
null matrix populated by the loop above (the triple lists arrive zipped, so the
length equality the source checks holds by construction). -/
def NEW_MATRIX_alloc (σ : Store) (rows cols : ℤ) (triples : List (ℤ × ℤ × ℚ)) :
    Option (SparseMat × Store) :=
  newMatrixLoop σ (NULL_MATRIX rows cols) triples

/-- Translated from src/matrix_sparse_template.in lines 659-679 (the row scan of
the matrix Import): every line must have exactly three fields, row index, column
index and value; any violation is an error. -/
def mImportScan : List (List Char) → List (ℤ × ℤ × ℚ) → Option (List (ℤ × ℤ × ℚ))
  | [], acc => some acc
  | line :: rest, acc =>
    match fieldsGo line with
    | [f1, f2, f3] =>
      match parseIntGo? f1, parseIntGo? f2, parseFloatGo? f3 with
      | some a, some b, some q => mImportScan rest (acc ++ [(a, b, q)])
      | _, _, _ => none
    | _ => none

/-- Translated from src/matrix_sparse_template.in lines 613-683 (Import, sparse
matrix): parse a two-field header of dimensions, then the data rows, all into
locals; errors return with the target untouched; on success the target is
overwritten with a freshly built matrix. An empty file leaves rows = cols = 0. -/
def mImportGo (m : SparseMat) (σ : Store) (lines : List (List Char)) :
    GoOutcome (SparseMat × Store) :=
  match lines with
  | [] =>
    match NEW_MATRIX_alloc σ 0 0 [] with
    | none => .goFatal
    | some (m', σ') => .ok (m', σ')
  | hdr :: rest =>
    match fieldsGo hdr with
    | [f1, f2] =>
      match parseIntGo? f1, parseIntGo? f2 with
      | some r, some c =>
        match mImportScan rest [] with
        | none => .goErr (m, σ)
        | some triples =>
          match NEW_MATRIX_alloc σ r c triples with
          | none => .goFatal
          | some (m', σ') => .ok (m', σ')
      | _, _ => .goErr (m, σ)
    | _ => .goErr (m, σ)

/-! The vector iterator with structural-zero pruning, from the source. The
iterator is embedded as the current vector plus the remaining snapshot of the
ascending index sequence; the current position is the head. -/

/-- The structural-zero test applied through a scalar pointer: a nil pointer or
a dangling pointer panics. -/
def nullScalarP? (σ : Store) : Option Ptr → Option Bool
  | none => none
  | some p => (σ.get? p).map nullScalar

/-- Translated from src/vector_sparse_template.in lines 722-725 (the deletion
step inside VECTOR_ITERATOR.Next): the entry is removed from the map and from
the sparse index. -/
def SparseVec.iterDelete (v : SparseVec) (i : ℤ) : SparseVec :=
  { v with entries := v.entries.eraseP (fun e => e.1 == i),
           index := v.index.deleteIdx i }

/-- Translated from src/vector_sparse_template.in lines 721-726 (the pruning
loop of VECTOR_ITERATOR.Next): while positioned on a structural zero, delete it
and move on. Evaluating the test on a nil or dangling pointer panics. -/
def vIterPrune (σ : Store) : SparseVec → List ℤ → Option (SparseVec × List ℤ)
  | v, [] => some (v, [])
  | v, i :: rest =>
    match nullScalarP? σ (v.cellD i) with
    | none => none
    | some false => some (v, i :: rest)
    | some true => vIterPrune σ (v.iterDelete i) rest

/-- Translated from src/vector_sparse_template.in lines 719-727
(VECTOR_ITERATOR.Next): advance the underlying index iterator, then prune. -/
def vIterNext (σ : Store) (v : SparseVec) : List ℤ → Option (SparseVec × List ℤ)
  | [] => some (v, [])
  | _ :: rest => vIterPrune σ v rest

/-- Translated from src/vector_sparse_template.in lines 215-218 (ITERATOR): the
iterator starts on the full ascending index sequence, with no pruning check at
the initial position; obtaining the index iterator sorts the index structure on
demand. -/
def SparseVec.iterStart (v : SparseVec) : SparseVec × List ℤ :=
  ({ v with index := v.index.afterSort }, v.index.sortedValues)

/-- One full iteration of the vector iterator (for it := v.ITERATOR(); it.Ok();
it.Next() with an empty body), returning the final vector; fuel is the snapshot
length, which the strictly shrinking remainder never exhausts. -/
def vIterRunAux (σ : Store) : ℕ → SparseVec → List ℤ → Option SparseVec
  | _, v, [] => some v
  | 0, _, _ => none
  | fuel + 1, v, rem =>
    match vIterNext σ v rem with
    | none => none
    | some (v', rem') => vIterRunAux σ fuel v' rem'

/-- A full pruning iteration over the vector. -/
def SparseVec.iterFullRun (v : SparseVec) (σ : Store) : Option SparseVec :=
  vIterRunAux σ (v.index.sortedValues.length + 1) v.iterStart.1 v.iterStart.2

/-! The joint iterator over a mutable sparse vector and a const sparse vector,
from the source. -/

/-- A Go ConstScalar value as seen by the joint iterator: a reference to a
stored scalar pointer (possibly nil) or the immutable zero literal
CONST_SCALAR_TYPE(0.0). -/
inductive ConstSc where
  | ref (p : Option Ptr) : ConstSc
  | lit (q : ℚ) : ConstSc
deriving DecidableEq

/-- GetValue on a ConstScalar: dereferencing nil or a dangling pointer panics. -/
def constScVal? (σ : Store) : ConstSc → Option ℚ
  | .ref none => none
  | .ref (some p) => (σ.get? p).map SScalar.value
  | .lit q => some q

/-- Translated from src/vector_sparse_template.in lines 695-701 (GetConst): the
stored pointer wrapped as a ConstScalar when the key is present (a nil pointer
is wrapped, not dropped), interface nil otherwise. -/
def jGetConst (v : SparseVec) (i : ℤ) : Option ConstSc :=
  (v.cell? i).map ConstSc.ref

/-- Translated from src/vector_sparse_template.in lines 748-754 (the joint
iterator state): both sub-iterators, the current index, and the two current
scalars (s1 a possibly-nil pointer, s2 a possibly-interface-nil ConstScalar). -/
structure JIter where
  it1v   : SparseVec
  it1rem : List ℤ
  it2v   : SparseVec
  it2rem : List ℤ
  idx    : ℤ
  s1     : Option Ptr
  s2     : Option ConstSc
deriving DecidableEq

/-- Translated from src/vector_sparse_template.in lines 765-773 (the first stage
of VECTOR_JOINT_ITERATOR.Next): clear s1 and s2; when it1 is live, load its
index and scalar. -/
def jStage1 (st : JIter) : JIter :=
  let st0 := { st with s1 := none, s2 := none }
  match st.it1rem with
  | [] => st0
  | i1 :: _ => { st0 with idx := i1, s1 := st.it1v.cellD i1 }

/-- Translated from src/vector_sparse_template.in lines 774-783 (the second
stage): when it2 is live, take its position when it is ahead (or it1 is done),
or report both on an index tie. -/
def jStage2 (st0 : JIter) (ok1 : Bool) : JIter :=
  match st0.it2rem with
  | [] => st0
  | i2 :: _ =>
    if st0.idx > i2 ∨ ok1 = false then
      { st0 with idx := i2, s1 := none, s2 := jGetConst st0.it2v i2 }
    else if st0.idx = i2 then
      { st0 with s2 := jGetConst st0.it2v i2 }
    else st0

/-- Translated from src/vector_sparse_template.in lines 765-792
(VECTOR_JOINT_ITERATOR.Next): the two stages, then each side whose scalar was
taken advances (with pruning on side 1; side 2 is the same iterator type here),
and a missing side 2 becomes the exact zero literal. -/
def jNext (σ : Store) (st : JIter) : Option JIter :=
  let a := jStage2 (jStage1 st) (!st.it1rem.isEmpty)
  match (if a.s1.isSome then vIterNext σ a.it1v a.it1rem
         else some (a.it1v, a.it1rem)) with
  | none => none
  | some (v1, r1) =>
    if a.s2.isSome then
      match vIterNext σ a.it2v a.it2rem with
      | none => none
      | some (v2, r2) =>
        some { a with it1v := v1, it1rem := r1, it2v := v2, it2rem := r2 }
    else
      some { a with it1v := v1, it1rem := r1, s2 := some (ConstSc.lit 0) }

/-- Translated from src/vector_sparse_template.in lines 760-763 (Ok): true while
some side's current value is nonzero, with Go's short-circuit disjunction (the
second operand is not evaluated when the first is true). -/
def jOk? (σ : Store) (st : JIter) : Option Bool :=
  let b1? : Option Bool :=
    match st.s1 with
    | none => some false
    | some p => (σ.get? p).map (fun s => decide (s.value ≠ 0))
  match b1? with
  | none => none
  | some true => some true
  | some false =>
    match st.s2 with
    | none => some false
    | some c => (constScVal? σ c).map (fun q => decide (q ≠ 0))

/-- Translated from src/vector_sparse_template.in lines 810-820 (GetValue): each
side reports its current value, 0 for a nil side. -/
def jGetValue? (σ : Store) (st : JIter) : Option (ℚ × ℚ) :=
  match (match st.s1 with
         | none => some 0
         | some p => (σ.get? p).map SScalar.value) with
  | none => none
  | some v1 =>
    match (match st.s2 with
           | none => some 0
           | some c => constScVal? σ c) with
    | none => none
    | some v2 => some (v1, v2)

/-- The driving loop: while Ok(), record (Index, GetValue) and step. -/
def jointRunAux (σ : Store) : ℕ → JIter → Option (List (ℤ × ℚ × ℚ))
  | 0, _ => none
  | fuel + 1, st =>
    match jOk? σ st with
    | none => none
    | some false => some []
    | some true =>
      match jGetValue? σ st with
      | none => none
      | some (v1, v2) =>
        match jNext σ st with
        | none => none
        | some st' =>
          match jointRunAux σ fuel st' with
          | none => none
          | some tr => some ((st.idx, v1, v2) :: tr)

/-- Translated from src/vector_sparse_template.in lines 220-224 (JOINT_ITERATOR)
plus the driving loop: the iterator starts at index -1 with nil scalars, is
advanced once by the constructor, and is then driven until Ok() is false. -/
def SparseVec.jointIterate (a b : SparseVec) (σ : Store) :
    Option (List (ℤ × ℚ × ℚ)) :=
  match jNext σ ⟨a.iterStart.1, a.iterStart.2, b.iterStart.1, b.iterStart.2,
                 -1, none, none⟩ with
  | none => none
  | some st1 =>
    jointRunAux σ (a.index.sortedValues.length + b.index.sortedValues.length + 1) st1

/-- A joint-iteration side in good shape: its remaining index snapshot is
strictly ascending and every remaining position is bound to a live scalar whose
value is nonzero (so the iterator's structural-zero pruning never fires and
Ok() stays decided by the data). -/
def GoodList (u : SparseVec) (σ : Store) (l : List ℤ) : Prop :=
  List.Sorted (· < ·) l ∧
  ∀ i ∈ l, ∃ p s, u.cell? i = some (some p) ∧ σ.get? p = some s ∧ s.value ≠ 0

/-- The total value observation of a cell: the stored scalar's value, 0 for an
absent, nil or dangling binding. -/
def valOf (u : SparseVec) (σ : Store) (i : ℤ) : ℚ :=
  match u.cellD i with
  | none => 0
  | some p =>
    match σ.get? p with
    | none => 0
    | some s => s.value

/-! IsSymmetric, from the source. -/

/-- The fixed tolerance 1e-12 the source compares with. -/
def EPS12 : ℚ := 1 / 10 ^ 12

/-- Translated from src/matrix_sparse_template.in lines 417-422 (the loop of
IsSymmetric): walk the backing iterator (with its pruning), read the element at
the reported logical position and at its mirror, and compare with the fixed
tolerance 1e-12; reads at panicking positions propagate the panic. -/
def isSymLoop (m : SparseMat) (σ : Store) : ℕ → SparseVec → List ℤ → Option Bool
  | 0, _, _ => none
  | _ + 1, _, [] => some true
  | fuel + 1, v, k :: rest =>
    let ij := SparseMat.ijGo { m with values := v } k
    match SparseMat.constAtVal? { m with values := v } σ ij.1 ij.2,
          SparseMat.constAtVal? { m with values := v } σ ij.2 ij.1 with
    | some av, some bv =>
      if SScalar.equalsVal av bv EPS12 = false then some false
      else
        match vIterNext σ v (k :: rest) with
        | none => none
        | some (v', rem') => isSymLoop m σ fuel v' rem'
    | _, _ => none

/-- Translated from src/matrix_sparse_template.in lines 413-424 (IsSymmetric):
false for a non-square shape, else the element-wise mirror comparison over the
occupied positions; the epsilon argument is accepted and never used (the
comparison uses the constant 1e-12). -/
def SparseMat.isSymmetricGo (m : SparseMat) (σ : Store) (epsilon : ℚ) :
    Option Bool :=
  if m.rows ≠ m.cols then some false
  else
    isSymLoop m σ (m.values.index.sortedValues.length + 1)
      m.values.iterStart.1 m.values.iterStart.2

end Autodiff

namespace Autodiff

/-! Helper lemmas about association-list lookup and the store. -/

/-- Lookup success exhibits a member of the association list. -/
theorem assoc_lookup_mem {α β : Type} [BEq α] [LawfulBEq α]
    {l : List (α × β)} {a : α} {b : β} (h : l.lookup a = some b) : (a, b) ∈ l := by
  induction l with
  | nil => simp [List.lookup] at h
  | cons e rest ih =>
    rcases e with ⟨k, v⟩
    rw [List.lookup_cons] at h
    by_cases hk : a = k
    · subst hk
      simp only [beq_self_eq_true] at h
      injection h with h
      subst h
      exact List.mem_cons_self _ _
    · have hk' : (a == k) = false := by simpa using hk
      simp only [hk'] at h
      exact List.mem_cons_of_mem _ (ih h)

/-- Pointwise rewriting under a key-respecting map does not disturb lookups at
other keys. -/
theorem lookup_map_setfun (l : List (Ptr × SScalar)) (p : Ptr) (s : SScalar)
    (q : Ptr) (h : q ≠ p) :
    (l.map (fun e => if e.1 = p then (p, s) else e)).lookup q = l.lookup q := by
  induction l with
  | nil => rfl
  | cons e rest ih =>
    rcases e with ⟨k, v⟩
    by_cases hk : k = p
    · subst hk
      have hkq : (q == k) = false := by simpa using h
      simp [List.lookup_cons, hkq, ih]
    · simp only [List.map_cons, if_neg hk, List.lookup_cons]
      cases hkq : (q == k) with
      | true => rfl
      | false => exact ih

/-- Writing through a pointer leaves all other pointers' objects unchanged. -/
theorem Store.get?_setPtr_ne (σ : Store) (p : Ptr) (s : SScalar) (q : Ptr)
    (h : q ≠ p) : (σ.setPtr p s).get? q = σ.get? q :=
  lookup_map_setfun σ.mem p s q h

/-- Allocation leaves all previously existing pointers' objects unchanged. -/
theorem Store.get?_alloc_ne (σ : Store) (s : SScalar) (q : Ptr)
    (h : q ≠ σ.next) : ((σ.alloc s).1).get? q = σ.get? q := by
  have hq : (q == σ.next) = false := by simpa using h
  unfold Store.alloc Store.get?
  rw [List.lookup_cons]
  simp [hq]

/-- Allocation installs the new object at the fresh pointer. -/
theorem Store.get?_alloc_self (σ : Store) (s : SScalar) :
    ((σ.alloc s).1).get? σ.next = some s := by
  unfold Store.alloc Store.get?
  rw [List.lookup_cons]
  simp

/-- Writing through a pointer does not move the allocation frontier. -/
theorem Store.setPtr_next (σ : Store) (p : Ptr) (s : SScalar) :
    (σ.setPtr p s).next = σ.next := rfl

/-- Allocation advances the frontier by one. -/
theorem Store.alloc_next (σ : Store) (s : SScalar) :
    ((σ.alloc s).1).next = σ.next + 1 := rfl

/-- Writing through a pointer preserves store well-formedness. -/
theorem Store.wf_setPtr (σ : Store) (p : Ptr) (s : SScalar) (h : σ.Wf) :
    (σ.setPtr p s).Wf := by
  obtain ⟨hnd, hbd⟩ := h
  constructor
  · have hmap : (σ.mem.map (fun e => if e.1 = p then (p, s) else e)).map Prod.fst
        = σ.mem.map Prod.fst := by
      rw [List.map_map]
      apply List.map_congr_left
      intro e _
      by_cases he : e.1 = p
      · simp [he]
      · simp [he]
    simpa [Store.setPtr, hmap] using hnd
  · intro e he
    simp only [Store.setPtr, List.mem_map] at he
    obtain ⟨e0, he0, rfl⟩ := he
    by_cases h0 : e0.1 = p
    · simpa [h0] using h0 ▸ hbd e0 he0
    · simpa [h0] using hbd e0 he0

/-- Allocation preserves store well-formedness. -/
theorem Store.wf_alloc (σ : Store) (s : SScalar) (h : σ.Wf) :
    ((σ.alloc s).1).Wf := by
  obtain ⟨hnd, hbd⟩ := h
  constructor
  · simp only [Store.alloc, List.map_cons, List.nodup_cons]
    refine ⟨fun hmem => ?_, hnd⟩
    obtain ⟨e, he, hfst⟩ := List.mem_map.mp hmem
    exact absurd (hfst ▸ hbd e he) (lt_irrefl _)
  · intro e he
    rcases List.mem_cons.mp he with rfl | he
    · exact Nat.lt_succ_self _
    · exact Nat.lt_succ_of_lt (hbd e he)

/-- Cell observations agree across stores that agree on the cell's pointer. -/
theorem readCell_congr {σ1 σ2 : Store} {c : Option (Option Ptr)}
    (h : ∀ p, c = some (some p) → σ1.get? p = σ2.get? p) :
    readCell σ1 c = readCell σ2 c := by
  match c with
  | none => rfl
  | some none => rfl
  | some (some p) => simp [readCell, h p rfl]

/-- Reads of a vector agree across stores that agree on the vector's pointers. -/
theorem SparseVec.constAtVal_congr {v : SparseVec} {σ1 σ2 : Store}
    (h : ∀ e ∈ v.entries, ∀ p, e.2 = some p → σ1.get? p = σ2.get? p) (k : ℤ) :
    v.constAtVal? σ1 k = v.constAtVal? σ2 k := by
  unfold SparseVec.constAtVal?
  by_cases hb : k < 0 ∨ v.n ≤ k
  · simp [hb]
  · simp only [if_neg hb]
    apply readCell_congr
    intro p hp
    exact h (k, some p) (assoc_lookup_mem (by simpa [SparseVec.cell?] using hp)) p rfl

/-- A pointer with a live object lies below the allocation frontier. -/
theorem Store.lt_next_of_isSome (σ : Store) (h : σ.Wf) {p : Ptr}
    (hp : (σ.get? p).isSome) : p < σ.next := by
  obtain ⟨s, hs⟩ := Option.isSome_iff_exists.mp hp
  exact h.2 (p, s) (assoc_lookup_mem hs)

/-- Vector well-formedness survives a store extension that keeps old pointers'
objects. -/
theorem WfVec_mono {u : SparseVec} {σ σ' : Store} (hu : WfVec u σ)
    (hnext : σ.next ≤ σ'.next)
    (hstable : ∀ r, r < σ.next → σ'.get? r = σ.get? r) : WfVec u σ' := by
  obtain ⟨h1, h2, h3, h4⟩ := hu
  refine ⟨h1, h2, h3, fun e he => ?_⟩
  obtain ⟨hk0, hkn, p, hp, hplt, hpsome⟩ := h4 e he
  exact ⟨hk0, hkn, p, hp, lt_of_lt_of_le hplt hnext, by rw [hstable p hplt]; exact hpsome⟩

/-- Characterization: a write at an out-of-bounds index panics. -/
theorem SparseVec.atSetValue_oob {u : SparseVec} (σ : Store) {k : ℤ} (q : ℚ)
    (hb : k < 0 ∨ u.n ≤ k) : u.atSetValue σ k q = none := by
  simp [SparseVec.atSetValue, SparseVec.atRef, hb]

/-- Characterization: a write at a key bound to a live pointer overwrites the
pointed-to scalar's value in place. -/
theorem SparseVec.atSetValue_live {u : SparseVec} {σ : Store} {k : ℤ} (q : ℚ)
    {p : Ptr} {s : SScalar} (hb : ¬(k < 0 ∨ u.n ≤ k))
    (hc : u.cell? k = some (some p)) (hs : σ.get? p = some s) :
    u.atSetValue σ k q = some (u, σ.setPtr p (s.setValue q)) := by
  simp [SparseVec.atSetValue, SparseVec.atRef, hb, hc, hs]

/-- Characterization: a write at a key bound to a nil pointer panics. -/
theorem SparseVec.atSetValue_nil {u : SparseVec} (σ : Store) {k : ℤ} (q : ℚ)
    (hb : ¬(k < 0 ∨ u.n ≤ k)) (hc : u.cell? k = some none) :
    u.atSetValue σ k q = none := by
  simp [SparseVec.atSetValue, SparseVec.atRef, hb, hc]

/-- Characterization: a write at an absent in-range key vivifies a fresh zero
scalar, registers it, and then overwrites its value. -/
theorem SparseVec.atSetValue_vivify {u : SparseVec} {σ : Store} {k : ℤ} (q : ℚ)
    (hb : ¬(k < 0 ∨ u.n ≤ k)) (hc : u.cell? k = none) :
    u.atSetValue σ k q =
      some ({ u with entries := u.entries ++ [(k, some σ.next)],
                     index := u.index.insertIdx k },
            ((σ.alloc NULL_SCALAR).1).setPtr σ.next (NULL_SCALAR.setValue q)) := by
  have hget : ((σ.alloc NULL_SCALAR).1).get? σ.next = some NULL_SCALAR :=
    Store.get?_alloc_self σ NULL_SCALAR
  simp only [Store.alloc] at hget
  simp [SparseVec.atSetValue, SparseVec.atRef, hb, hc, Store.alloc, hget]

/-- Writing a value through a mutable access can touch only the accessed entry's
pointer or a freshly allocated one: any pointer below the frontier that is not
bound in the vector reads unchanged. -/
theorem SparseVec.atSetValue_stable {u : SparseVec} {σ : Store} {k : ℤ} {q : ℚ}
    {u' : SparseVec} {σ' : Store} (h : u.atSetValue σ k q = some (u', σ'))
    (r : Ptr) (hr : r < σ.next)
    (hne : ∀ e ∈ u.entries, ∀ p, e.2 = some p → p ≠ r) :
    σ'.get? r = σ.get? r := by
  by_cases hb : k < 0 ∨ u.n ≤ k
  · rw [SparseVec.atSetValue_oob σ q hb] at h
    exact Option.noConfusion h
  · rcases hc : u.cell? k with _ | ⟨_ | p⟩
    · rw [SparseVec.atSetValue_vivify q hb hc] at h
      injection h with h
      have hσ' : σ' = ((σ.alloc NULL_SCALAR).1).setPtr σ.next
          (NULL_SCALAR.setValue q) := (congrArg Prod.snd h).symm
      rw [hσ', Store.get?_setPtr_ne _ _ _ _ (Nat.ne_of_lt hr)]
      exact Store.get?_alloc_ne σ NULL_SCALAR r (Nat.ne_of_lt hr)
    · rw [SparseVec.atSetValue_nil σ q hb hc] at h
      exact Option.noConfusion h
    · rcases hsp : σ.get? p with _ | s
      · rw [SparseVec.atSetValue, SparseVec.atRef, if_neg hb, hc] at h
        simp [hsp] at h
      · rw [SparseVec.atSetValue_live q hb hc hsp] at h
        injection h with h
        have hσ' : σ' = σ.setPtr p (s.setValue q) := (congrArg Prod.snd h).symm
        have hpr : p ≠ r :=
          hne (k, some p) (assoc_lookup_mem (by simpa [SparseVec.cell?] using hc)) p rfl
        rw [hσ', Store.get?_setPtr_ne _ _ _ _ (fun hh => hpr hh.symm)]

/-- Frontier growth under a mutable-access write. -/
theorem SparseVec.atSetValue_next_le {u : SparseVec} {σ : Store} {k : ℤ} {q : ℚ}
    {u' : SparseVec} {σ' : Store} (h : u.atSetValue σ k q = some (u', σ')) :
    σ.next ≤ σ'.next := by
  by_cases hb : k < 0 ∨ u.n ≤ k
  · rw [SparseVec.atSetValue_oob σ q hb] at h
    exact Option.noConfusion h
  · rcases hc : u.cell? k with _ | ⟨_ | p⟩
    · rw [SparseVec.atSetValue_vivify q hb hc] at h
      injection h with h
      have hσ' : σ' = ((σ.alloc NULL_SCALAR).1).setPtr σ.next
          (NULL_SCALAR.setValue q) := (congrArg Prod.snd h).symm
      rw [hσ', Store.setPtr_next, Store.alloc_next]
      exact Nat.le_succ _
    · rw [SparseVec.atSetValue_nil σ q hb hc] at h
      exact Option.noConfusion h
    · rcases hsp : σ.get? p with _ | s
      · rw [SparseVec.atSetValue, SparseVec.atRef, if_neg hb, hc] at h
        simp [hsp] at h
      · rw [SparseVec.atSetValue_live q hb hc hsp] at h
        injection h with h
        have hσ' : σ' = σ.setPtr p (s.setValue q) := (congrArg Prod.snd h).symm
        rw [hσ', Store.setPtr_next]

/-- Full specification of the entry-cloning loop: under a well-formed store, for
entries all bound to live pointers, the loop succeeds, only extends the store
(old pointers read unchanged), keeps the key sequence, binds the copies to fresh
pointers at or above the old frontier, and preserves every key's observation. -/
theorem cloneLoop_spec :
    ∀ (es : List (ℤ × Option Ptr)) (σ : Store), σ.Wf →
    (∀ e ∈ es, ∃ p, e.2 = some p ∧ (σ.get? p).isSome) →
    ∃ es' σ', SparseVec.cloneLoop σ es = some (es', σ') ∧
      σ'.Wf ∧ σ.next ≤ σ'.next ∧
      (∀ r, r < σ.next → σ'.get? r = σ.get? r) ∧
      es'.map Prod.fst = es.map Prod.fst ∧
      (∀ e ∈ es', ∃ p, e.2 = some p ∧ σ.next ≤ p ∧ p < σ'.next ∧
        (σ'.get? p).isSome) ∧
      (∀ k : ℤ, readCell σ' (es'.lookup k) = readCell σ (es.lookup k)) := by
  intro es
  induction es with
  | nil =>
    intro σ hσ _
    exact ⟨[], σ, rfl, hσ, le_refl _, fun r _ => rfl, rfl, by simp, fun k => rfl⟩
  | cons e rest ih =>
    intro σ hσ hes
    obtain ⟨p, hp2, hpsome⟩ := hes e (List.mem_cons_self _ _)
    rcases e with ⟨k0, c0⟩
    simp only at hp2
    subst hp2
    obtain ⟨s, hs⟩ := Option.isSome_iff_exists.mp hpsome
    have hplt : p < σ.next := Store.lt_next_of_isSome σ hσ hpsome
    have hσ1 : ((σ.alloc s).1).Wf := Store.wf_alloc σ s hσ
    have hnext1 : ((σ.alloc s).1).next = σ.next + 1 := Store.alloc_next σ s
    have hrest : ∀ e ∈ rest, ∃ pp, e.2 = some pp ∧
        (((σ.alloc s).1).get? pp).isSome := by
      intro e he
      obtain ⟨pp, hpp, hppsome⟩ := hes e (List.mem_cons_of_mem _ he)
      have hpplt : pp < σ.next := Store.lt_next_of_isSome σ hσ hppsome
      refine ⟨pp, hpp, ?_⟩
      rw [Store.get?_alloc_ne σ s pp (Nat.ne_of_lt hpplt)]
      exact hppsome
    obtain ⟨es'', σ'', hloop, hwf'', hmono'', hstable'', hkeys'', hrange'', hread''⟩ :=
      ih ((σ.alloc s).1) hσ1 hrest
    simp only [hnext1] at hmono'' hstable'' hrange''
    have hmono : σ.next ≤ σ''.next := le_trans (Nat.le_succ _) hmono''
    have hstable : ∀ r, r < σ.next → σ''.get? r = σ.get? r := by
      intro r hr
      rw [hstable'' r (Nat.lt_succ_of_lt hr), Store.get?_alloc_ne σ s r (Nat.ne_of_lt hr)]
    have hgetnew : σ''.get? σ.next = some s := by
      rw [hstable'' σ.next (Nat.lt_succ_self _)]
      exact Store.get?_alloc_self σ s
    refine ⟨(k0, some σ.next) :: es'', σ'', ?_, hwf'', hmono, hstable, ?_, ?_, ?_⟩
    · have hloop' : SparseVec.cloneLoop ⟨(σ.next, s) :: σ.mem, σ.next + 1⟩ rest
          = some (es'', σ'') := by simpa [Store.alloc] using hloop
      simp [SparseVec.cloneLoop, hs, Store.alloc, hloop']
    · simp [hkeys'']
    · intro e he
      rcases List.mem_cons.mp he with rfl | he
      · exact ⟨σ.next, rfl, le_refl _,
          lt_of_lt_of_le (Nat.lt_succ_self _) hmono'', by rw [hgetnew]; rfl⟩
      · obtain ⟨pp, hpp, hge, hlt, hsome⟩ := hrange'' e he
        exact ⟨pp, hpp, le_trans (Nat.le_succ _) hge, hlt, hsome⟩
    · intro k
      by_cases hk : k = k0
      · subst hk
        rw [List.lookup_cons, List.lookup_cons]
        simp only [beq_self_eq_true]
        simp [readCell, hgetnew, hs]
      · have hk' : (k == k0) = false := by simpa using hk
        rw [List.lookup_cons, List.lookup_cons]
        simp only [hk']
        rw [hread'' k]
        apply readCell_congr
        intro pp hpp
        have hmem := assoc_lookup_mem hpp
        obtain ⟨pq, hpq, hpqsome⟩ := hes (k, some pp) (List.mem_cons_of_mem _ hmem)
        simp only at hpq
        have hpqlt : pp < σ.next := by
          cases hpq
          exact Store.lt_next_of_isSome σ hσ hpqsome
        exact Store.get?_alloc_ne σ s pp (Nat.ne_of_lt hpqlt)

/-- Full specification of vector Clone: it succeeds on well-formed input,
extends the store with fresh deep copies, preserves dimension, index, key
sequence and every key's observation, binds the copy's entries to pointers at or
above the old frontier, and yields a well-formed vector. -/
theorem SparseVec.clone_spec (v : SparseVec) (σ : Store) (hσ : σ.Wf)
    (hv : WfVec v σ) :
    ∃ c σ', v.clone σ = some (c, σ') ∧ σ'.Wf ∧ σ.next ≤ σ'.next ∧
      (∀ r, r < σ.next → σ'.get? r = σ.get? r) ∧
      c.n = v.n ∧ c.index = v.index ∧
      c.entries.map Prod.fst = v.entries.map Prod.fst ∧
      (∀ e ∈ c.entries, ∃ p, e.2 = some p ∧ σ.next ≤ p ∧ p < σ'.next ∧
        (σ'.get? p).isSome) ∧
      (∀ k, readCell σ' (c.cell? k) = readCell σ (v.cell? k)) ∧
      WfVec c σ' := by
  have hes : ∀ e ∈ v.entries, ∃ p, e.2 = some p ∧ (σ.get? p).isSome := by
    intro e he
    obtain ⟨_, _, p, hp, _, hpsome⟩ := hv.2.2.2 e he
    exact ⟨p, hp, hpsome⟩
  obtain ⟨es', σ', hloop, hwf', hmono, hstable, hkeys, hrange, hread⟩ :=
    cloneLoop_spec v.entries σ hσ hes
  refine ⟨⟨v.index.cloneIdx, es', v.n⟩, σ', ?_, hwf', hmono, hstable, rfl, rfl,
    hkeys, hrange, hread, ?_⟩
  · simp [SparseVec.clone, hloop]
  · obtain ⟨hnd, hperm, hsorted, hent⟩ := hv
    refine ⟨?_, ?_, hsorted, ?_⟩
    · simpa only [hkeys] using hnd
    · simpa only [SpIndex.cloneIdx, hkeys] using hperm
    · intro e he
      have hkey : e.1 ∈ v.entries.map Prod.fst := by
        rw [← hkeys]
        exact List.mem_map_of_mem Prod.fst he
      obtain ⟨e0, he0, heq⟩ := List.mem_map.mp hkey
      obtain ⟨h0, hn0, _⟩ := hent e0 he0
      obtain ⟨p, hp, _, hplt, hpsome⟩ := hrange e he
      exact ⟨heq ▸ h0, heq ▸ hn0, p, hp, hplt, hpsome⟩

/-- Reads of a matrix agree across stores that agree on its backing vector's
pointers. -/
theorem SparseMat.constAtVal_store_congr {m : SparseMat} {σ1 σ2 : Store}
    (h : ∀ e ∈ m.values.entries, ∀ p, e.2 = some p → σ1.get? p = σ2.get? p)
    (i j : ℤ) : m.constAtVal? σ1 i j = m.constAtVal? σ2 i j := by
  unfold SparseMat.constAtVal?
  cases m.indexGo? i j with
  | none => rfl
  | some k => exact SparseVec.constAtVal_congr h k

/-- Reads through two equal-dimension vectors agree when their cells observe
equally. -/
theorem SparseVec.constAtVal_of_read_eq {c v : SparseVec} {σc σv : Store}
    (hn : c.n = v.n)
    (hread : ∀ k, readCell σc (c.cell? k) = readCell σv (v.cell? k)) :
    ∀ k, c.constAtVal? σc k = v.constAtVal? σv k := by
  intro k
  unfold SparseVec.constAtVal?
  rw [hn]
  by_cases hb : k < 0 ∨ v.n ≤ k
  · simp [hb]
  · simp [hb, hread k]

/-- Inversion of a matrix-level write into the backing-vector write. -/
theorem SparseMat.atSetValue_inv {m : SparseMat} {σ : Store} {i j : ℤ} {q : ℚ}
    {m2 : SparseMat} {σ2 : Store} (h : m.atSetValue σ i j q = some (m2, σ2)) :
    ∃ k v2, m.indexGo? i j = some k ∧
      m.values.atSetValue σ k q = some (v2, σ2) ∧ m2 = { m with values := v2 } := by
  unfold SparseMat.atSetValue at h
  split at h
  · exact Option.noConfusion h
  · rename_i k hk
    split at h
    · exact Option.noConfusion h
    · rename_i v2 σ2' hpr
      injection h with h
      have hσ : σ2' = σ2 := congrArg Prod.snd h
      exact ⟨k, v2, hk, by rw [hpr, hσ], (congrArg Prod.fst h).symm⟩

/-- Two bindings of the same cell carry the same pointer. -/
theorem entry_ptr_eq {e : ℤ × Option Ptr} {p p0 : Ptr}
    (hp : e.2 = some p) (hp0 : e.2 = some p0) : p = p0 :=
  Option.some.inj (hp.symm.trans hp0)

/-! C7: Clone is a deep copy. -/

/-- Claim C7: Clone() produces a deep copy for both the sparse vector and the
sparse matrix: the clone reads element-wise equal to the original, cloning
leaves the original's reads intact, and a subsequent write through either
container (including a vivifying write of a fresh entry) leaves every read of
the other container exactly as before, in both directions. -/
theorem C7_clone_deep
    (v : SparseVec) (m : SparseMat) (σ σM : Store)
    (hσ : σ.Wf) (hv : WfVec v σ) (hσM : σM.Wf) (hM : WfMat m σM) :
    (∃ c σ', v.clone σ = some (c, σ') ∧
      (∀ k, c.constAtVal? σ' k = v.constAtVal? σ k) ∧
      (∀ k, v.constAtVal? σ' k = v.constAtVal? σ k) ∧
      (∀ i q c2 σ2, c.atSetValue σ' i q = some (c2, σ2) →
        ∀ k, v.constAtVal? σ2 k = v.constAtVal? σ k) ∧
      (∀ i q v2 σ2, v.atSetValue σ' i q = some (v2, σ2) →
        ∀ k, c.constAtVal? σ2 k = c.constAtVal? σ' k)) ∧
    (∃ cm σ', m.clone σM = some (cm, σ') ∧
      (∀ i j, cm.constAtVal? σ' i j = m.constAtVal? σM i j) ∧
      (∀ i j, m.constAtVal? σ' i j = m.constAtVal? σM i j) ∧
      (∀ i j q m2 σ2, cm.atSetValue σ' i j q = some (m2, σ2) →
        ∀ a b, m.constAtVal? σ2 a b = m.constAtVal? σM a b) ∧
      (∀ i j q m2 σ2, m.atSetValue σ' i j q = some (m2, σ2) →
        ∀ a b, cm.constAtVal? σ2 a b = cm.constAtVal? σ' a b)) := by
  constructor
  · obtain ⟨c, σ', hcl, hwf', hmono, hstable, hn, hidx, hkeys, hrange, hread, hwfc⟩ :=
      SparseVec.clone_spec v σ hσ hv
    have hvlt : ∀ e ∈ v.entries, ∀ p, e.2 = some p → p < σ.next := by
      intro e he p hp
      obtain ⟨_, _, p0, hp0, hlt, _⟩ := hv.2.2.2 e he
      exact (entry_ptr_eq hp hp0) ▸ hlt
    have hclt : ∀ e ∈ c.entries, ∀ p, e.2 = some p → σ.next ≤ p ∧ p < σ'.next := by
      intro e he p hp
      obtain ⟨p0, hp0, hge, hlt, _⟩ := hrange e he
      exact (entry_ptr_eq hp hp0) ▸ ⟨hge, hlt⟩
    have hb : ∀ k, v.constAtVal? σ' k = v.constAtVal? σ k := fun k =>
      SparseVec.constAtVal_congr (fun e he p hp => hstable p (hvlt e he p hp)) k
    refine ⟨c, σ', hcl, SparseVec.constAtVal_of_read_eq hn hread, hb, ?_, ?_⟩
    · intro i q c2 σ2 hmut k
      have hstab2 : ∀ e ∈ v.entries, ∀ p, e.2 = some p →
          σ2.get? p = σ'.get? p := by
        intro e he p hp
        apply SparseVec.atSetValue_stable hmut p
          (lt_of_lt_of_le (hvlt e he p hp) hmono)
        intro e' he' p' hp' hpeq
        have hge := (hclt e' he' p' hp').1
        exact absurd (hpeq ▸ hge) (not_le_of_lt (hvlt e he p hp))
      exact (SparseVec.constAtVal_congr hstab2 k).trans (hb k)
    · intro i q v2 σ2 hmut k
      apply SparseVec.constAtVal_congr
      intro e he p hp
      obtain ⟨hge, hlt⟩ := hclt e he p hp
      apply SparseVec.atSetValue_stable hmut p hlt
      intro e' he' p' hp' hpeq
      exact absurd (hpeq ▸ hvlt e' he' p' hp') (not_lt_of_le hge)
  · obtain ⟨hMv, hMt1, hMt2⟩ := hM
    obtain ⟨v1, σ1, hcl1, hwf1, hmono1, hstable1, hn1, _, _, hrange1, hread1, _⟩ :=
      SparseVec.clone_spec m.values σM hσM hMv
    obtain ⟨t1, σ2s, hcl2, hwf2, hmono2, hstable2, _, _, _, _, _, _⟩ :=
      SparseVec.clone_spec m.tmp1 σ1 hwf1 (WfVec_mono hMt1 hmono1 hstable1)
    obtain ⟨t2, σ3, hcl3, hwf3, hmono3, hstable3, _, _, _, _, _, _⟩ :=
      SparseVec.clone_spec m.tmp2 σ2s hwf2
        (WfVec_mono (WfVec_mono hMt2 hmono1 hstable1) hmono2 hstable2)
    have hvllt : ∀ e ∈ m.values.entries, ∀ p, e.2 = some p → p < σM.next := by
      intro e he p hp
      obtain ⟨_, _, p0, hp0, hlt, _⟩ := hMv.2.2.2 e he
      exact (entry_ptr_eq hp hp0) ▸ hlt
    have hv1lt : ∀ e ∈ v1.entries, ∀ p, e.2 = some p →
        σM.next ≤ p ∧ p < σ1.next := by
      intro e he p hp
      obtain ⟨p0, hp0, hge, hlt, _⟩ := hrange1 e he
      exact (entry_ptr_eq hp hp0) ▸ ⟨hge, hlt⟩
    have hstab31 : ∀ r, r < σ1.next → σ3.get? r = σ1.get? r := by
      intro r hr
      rw [hstable3 r (lt_of_lt_of_le hr hmono2), hstable2 r hr]
    have hstab3M : ∀ r, r < σM.next → σ3.get? r = σM.get? r := by
      intro r hr
      rw [hstab31 r (lt_of_lt_of_le hr hmono1), hstable1 r hr]
    have hclm : m.clone σM = some ({ m with values := v1, tmp1 := t1, tmp2 := t2 }, σ3) := by
      simp [SparseMat.clone, hcl1, hcl2, hcl3]
    have hmb : ∀ a b, m.constAtVal? σ3 a b = m.constAtVal? σM a b := fun a b =>
      SparseMat.constAtVal_store_congr
        (fun e he p hp => hstab3M p (hvllt e he p hp)) a b
    have hidxeq : ∀ i j, ({ m with values := v1, tmp1 := t1, tmp2 := t2 } :
        SparseMat).indexGo? i j = m.indexGo? i j := fun i j => rfl
    have hv1read : ∀ k, v1.constAtVal? σ3 k = m.values.constAtVal? σM k := by
      intro k
      have h1 : v1.constAtVal? σ3 k = v1.constAtVal? σ1 k :=
        SparseVec.constAtVal_congr
          (fun e he p hp => hstab31 p (hv1lt e he p hp).2) k
      rw [h1]
      exact SparseVec.constAtVal_of_read_eq hn1 hread1 k
    refine ⟨{ m with values := v1, tmp1 := t1, tmp2 := t2 }, σ3, hclm, ?_, hmb, ?_, ?_⟩
    · intro i j
      unfold SparseMat.constAtVal?
      rw [hidxeq i j]
      cases m.indexGo? i j with
      | none => rfl
      | some k => exact hv1read k
    · intro i j q m2 σ2 hmut a b
      obtain ⟨k, v2, hik, hmutv, hm2⟩ := SparseMat.atSetValue_inv hmut
      have hstab : ∀ e ∈ m.values.entries, ∀ p, e.2 = some p →
          σ2.get? p = σ3.get? p := by
        intro e he p hp
        apply SparseVec.atSetValue_stable hmutv p
          (lt_of_lt_of_le (hvllt e he p hp)
            (le_trans hmono1 (le_trans hmono2 hmono3)))
        intro e' he' p' hp' hpeq
        exact absurd (hpeq ▸ (hv1lt e' he' p' hp').1)
          (not_le_of_lt (hvllt e he p hp))
      exact (SparseMat.constAtVal_store_congr hstab a b).trans (hmb a b)
    · intro i j q m2 σ2 hmut a b
      obtain ⟨k, v2, hik, hmutv, hm2⟩ := SparseMat.atSetValue_inv hmut
      apply SparseMat.constAtVal_store_congr
      intro e he p hp
      obtain ⟨hge, hlt⟩ := hv1lt e he p hp
      apply SparseVec.atSetValue_stable hmutv p
        (lt_of_lt_of_le hlt (le_trans hmono2 hmono3))
      intro e' he' p' hp' hpeq
      exact absurd (hpeq ▸ hvllt e' he' p' hp') (not_lt_of_le hge)

/-- The nil vector is well-formed against any store. -/
theorem WfVec_nil (nn : ℤ) (σx : Store) : WfVec (NIL_VECTOR nn) σx :=
  ⟨List.nodup_nil, List.Perm.refl _, fun _ => List.sorted_nil,
   fun e he => absurd he (List.not_mem_nil e)⟩

/-- Claim C7 (witness): the deep-copy theorem applied to the dimension-1 vector
holding the scalar 5 at index 0 and to the fresh 1 by 1 null matrix, projecting
the vector conclusion. -/
theorem C7_clone_deep_witness :
    ∃ c σ', (⟨⟨[0], false⟩, [(0, some 0)], 1⟩ : SparseVec).clone
        ⟨[(0, NEW_SCALAR 5)], 1⟩ = some (c, σ') ∧
      (∀ k, c.constAtVal? σ' k =
        SparseVec.constAtVal? ⟨⟨[0], false⟩, [(0, some 0)], 1⟩
          ⟨[(0, NEW_SCALAR 5)], 1⟩ k) := by
  have hσ0 : Store.Wf ⟨[(0, NEW_SCALAR 5)], 1⟩ := ⟨by decide, by decide⟩
  have hv0 : WfVec ⟨⟨[0], false⟩, [(0, some 0)], 1⟩ ⟨[(0, NEW_SCALAR 5)], 1⟩ := by
    refine ⟨by decide, by decide, by decide, ?_⟩
    intro e he
    rw [List.mem_singleton] at he
    subst he
    exact ⟨by decide, by decide, 0, rfl, by decide, by decide⟩
  have hM0 : WfMat (NULL_MATRIX 1 1) ⟨[(0, NEW_SCALAR 5)], 1⟩ :=
    ⟨WfVec_nil 1 _, WfVec_nil 1 _, WfVec_nil 1 _⟩
  obtain ⟨⟨c, σ', hcl, hr, _, _, _⟩, _⟩ :=
    C7_clone_deep ⟨⟨[0], false⟩, [(0, some 0)], 1⟩ (NULL_MATRIX 1 1)
      ⟨[(0, NEW_SCALAR 5)], 1⟩ ⟨[(0, NEW_SCALAR 5)], 1⟩
      hσ0 hv0 hσ0 hM0
  exact ⟨c, σ', hcl, hr⟩

/-! C6: Slice and aliasing. -/

/-- The on-demand sorted view of a truthfully flagged index is sorted. -/
theorem SpIndex.sortedValues_sorted (s : SpIndex)
    (h : s.sorted = true → List.Sorted (· ≤ ·) s.values) :
    List.Sorted (· ≤ ·) s.sortedValues := by
  unfold SpIndex.sortedValues
  cases hs : s.sorted
  · simp only [Bool.false_eq_true, if_false]
    exact List.sorted_insertionSort (· ≤ ·) s.values
  · simp only [if_true]
    exact h hs

/-- The on-demand sorted view is a permutation of the stored values. -/
theorem SpIndex.sortedValues_perm (s : SpIndex) : s.sortedValues.Perm s.values := by
  unfold SpIndex.sortedValues
  cases s.sorted
  · simp only [Bool.false_eq_true, if_false]
    exact List.perm_insertionSort (· ≤ ·) s.values
  · exact List.Perm.refl _

/-- On an ascending list, cutting below a bound is the same as filtering. -/
theorem takeWhile_lt_eq_filter {l : List ℤ} (hl : List.Sorted (· ≤ ·) l) (j : ℤ) :
    l.takeWhile (fun k => k < j) = l.filter (fun k => k < j) := by
  induction l with
  | nil => rfl
  | cons a t ih =>
    by_cases ha : a < j
    · simp [List.takeWhile_cons, List.filter_cons, ha, ih hl.of_cons]
    · have hrest : ∀ b ∈ t, ¬ b < j := fun b hb hbj =>
        ha (lt_of_le_of_lt (List.rel_of_sorted_cons hl b hb) hbj)
      have h1 : (a :: t).takeWhile (fun k => decide (k < j)) = [] := by
        simp [List.takeWhile_cons, ha]
      have h2 : (a :: t).filter (fun k => decide (k < j)) = [] := by
        rw [List.filter_eq_nil_iff]
        intro b hb
        rcases List.mem_cons.mp hb with rfl | hb
        · simpa using ha
        · simpa using hrest b hb
      simpa using h1.trans h2.symm

/-- In an association list with distinct keys, membership determines lookup. -/
theorem lookup_of_mem_nodup {β : Type} {l : List (ℤ × β)}
    (hnd : (l.map Prod.fst).Nodup) {k : ℤ} {c : β} (h : (k, c) ∈ l) :
    l.lookup k = some c := by
  induction l with
  | nil => cases h
  | cons e t ih =>
    rcases List.mem_cons.mp h with rfl | hmem
    · simp [List.lookup_cons]
    · have hne : (k == e.1) = false := by
        have : e.1 ∉ t.map Prod.fst := (List.nodup_cons.mp (by simpa using hnd)).1
        have hkt : k ∈ t.map Prod.fst := List.mem_map_of_mem Prod.fst hmem
        simp only [beq_eq_false_iff_ne, ne_eq]
        intro hke
        exact this (hke ▸ hkt)
      rcases e with ⟨a, b⟩
      rw [List.lookup_cons]
      simp only at hne
      simp only [hne]
      exact ih (by simpa using (List.nodup_cons.mp (by simpa using hnd)).2) hmem

/-- Lookup in the shifted, pointer-copying entry list of a slice. -/
theorem lookup_map_shift {ks : List ℤ} {i : ℤ} (g : ℤ → Option Ptr)
    (hnd : ks.Nodup) {k0 : ℤ} (hk : k0 ∈ ks) :
    (ks.map (fun k => (k - i, g k))).lookup (k0 - i) = some (g k0) := by
  induction ks with
  | nil => cases hk
  | cons a t ih =>
    rcases List.mem_cons.mp hk with rfl | hk'
    · simp [List.lookup_cons]
    · have ha : a ≠ k0 := fun h => (List.nodup_cons.mp hnd).1 (h ▸ hk')
      have hne : ((k0 - i) == (a - i)) = false := by
        simp only [beq_eq_false_iff_ne, ne_eq]
        intro hh
        have hk0a : k0 = a := by linarith
        exact ha hk0a.symm
      simp only [List.map_cons, List.lookup_cons, hne]
      exact ih (List.nodup_cons.mp hnd).2 hk'

/-- Claim C6 (counterexample): the claim states that a slice holds copies, so
that mutating a scalar of the slice does not change the original; on the
dimension-2 vector with the scalar 5 stored at index 1 (pointer 0), slicing the
window [0,2) and writing 7 through the slice at position 1 makes a subsequent
read of the original at index 1 return 7 instead of its prior 5: the slice
aliases the original's scalar. -/
theorem C6_slice_alias_counterexample :
    (SparseVec.sliceGo ⟨⟨[1], false⟩, [(1, some 0)], 2⟩ 0 2).atSetValue
        ⟨[(0, NEW_SCALAR 5)], 1⟩ 1 7 =
      some (SparseVec.sliceGo ⟨⟨[1], false⟩, [(1, some 0)], 2⟩ 0 2,
            ⟨[(0, NEW_SCALAR 7)], 1⟩) ∧
    SparseVec.constAtVal? ⟨⟨[1], false⟩, [(1, some 0)], 2⟩
      ⟨[(0, NEW_SCALAR 7)], 1⟩ 1 = some 7 ∧
    SparseVec.constAtVal? ⟨⟨[1], false⟩, [(1, some 0)], 2⟩
      ⟨[(0, NEW_SCALAR 5)], 1⟩ 1 = some 5 ∧
    (7 : ℚ) ≠ 5 := by
  refine ⟨by decide, by decide, by decide, by decide⟩

/-- Claim C6 (amended): for 0 ≤ from ≤ to ≤ dim(), Slice(from, to) returns a new
vector of length to-from whose binding at k-from, for each occupied index k of
the original in [from, to), is the very same scalar pointer as the original's
binding at k (an alias, not a copy — mutating a scalar of the slice is visible
in the original), and which has no other occupied entries. -/
theorem C6_slice_window_aliases (v : SparseVec) (σ : Store) (i j : ℤ)
    (hσ : σ.Wf) (hv : WfVec v σ) (h0 : 0 ≤ i) (hij : i ≤ j) (hjn : j ≤ v.n) :
    (v.sliceGo i j).n = j - i ∧
    (∀ k c, v.cell? k = some c → i ≤ k → k < j →
        (v.sliceGo i j).cell? (k - i) = some c) ∧
    (∀ k', (v.sliceGo i j).cell? k' ≠ none →
        ∃ k c, i ≤ k ∧ k < j ∧ k' = k - i ∧ v.cell? k = some c ∧
          (v.sliceGo i j).cell? k' = some c) := by
  obtain ⟨hnd, hperm, hflag, hent⟩ := hv
  have hsvperm : v.index.sortedValues.Perm (v.entries.map Prod.fst) :=
    (SpIndex.sortedValues_perm v.index).trans hperm
  have hsvnd : v.index.sortedValues.Nodup := hsvperm.nodup_iff.mpr hnd
  have hsvsorted : List.Sorted (· ≤ ·) v.index.sortedValues :=
    SpIndex.sortedValues_sorted v.index hflag
  have hfsorted : List.Sorted (· ≤ ·)
      (v.index.sortedValues.filter (fun k => i ≤ k)) :=
    List.Pairwise.filter _ hsvsorted
  have hks : ((v.index.sortedValues.filter (fun k => i ≤ k)).takeWhile
        (fun k => k < j))
      = (v.index.sortedValues.filter (fun k => i ≤ k)).filter (fun k => k < j) :=
    takeWhile_lt_eq_filter hfsorted j
  have hksnd : ((v.index.sortedValues.filter (fun k => i ≤ k)).takeWhile
      (fun k => k < j)).Nodup := by
    rw [hks]
    exact (hsvnd.filter _).filter _
  have hksmem : ∀ k : ℤ, k ∈ ((v.index.sortedValues.filter (fun k => i ≤ k)).takeWhile
      (fun k => k < j)) ↔ (k ∈ v.entries.map Prod.fst ∧ i ≤ k ∧ k < j) := by
    intro k
    rw [hks]
    simp only [List.mem_filter, decide_eq_true_eq]
    constructor
    · rintro ⟨⟨hmem, hik⟩, hkj⟩
      exact ⟨hsvperm.mem_iff.mp hmem, hik, hkj⟩
    · rintro ⟨hmem, hik, hkj⟩
      exact ⟨⟨hsvperm.mem_iff.mpr hmem, hik⟩, hkj⟩
  refine ⟨rfl, ?_, ?_⟩
  · intro k c hc hik hkj
    have hkmem : k ∈ v.entries.map Prod.fst :=
      List.mem_map_of_mem Prod.fst (assoc_lookup_mem hc)
    have hkks := (hksmem k).mpr ⟨hkmem, hik, hkj⟩
    have hlk := lookup_map_shift (i := i) v.cellD hksnd hkks
    have hcd : v.cellD k = c := by
      unfold SparseVec.cellD
      rw [hc]
      rfl
    rw [SparseVec.cell?]
    simp only [SparseVec.sliceGo]
    rw [hlk, hcd]
  · intro k' hk'
    rcases hsl : (v.sliceGo i j).cell? k' with _ | c'
    · exact absurd hsl hk'
    · have hmem := assoc_lookup_mem (by simpa [SparseVec.cell?] using hsl)
      simp only [SparseVec.sliceGo, List.mem_map] at hmem
      obtain ⟨k, hkks, hkeq⟩ := hmem
      have hk1 : k - i = k' := congrArg Prod.fst hkeq
      have hk2 : v.cellD k = c' := congrArg Prod.snd hkeq
      obtain ⟨hkmem, hik, hkj⟩ := (hksmem k).mp hkks
      obtain ⟨e0, he0, he0k⟩ := List.mem_map.mp hkmem
      have hlk0 : v.cell? k = some e0.2 := by
        rw [SparseVec.cell?]
        exact lookup_of_mem_nodup hnd (he0k ▸ (by simpa using he0))
      have hc' : c' = e0.2 := by
        rw [← hk2]
        unfold SparseVec.cellD
        rw [hlk0]
        rfl
      have hfinal : v.cell? k = some c' := by rw [hc']; exact hlk0
      exact ⟨k, c', hik, hkj, hk1.symm, hfinal, rfl⟩

/-- Claim C6 (witness): the amended slice theorem applied to the dimension-2
vector with an entry at index 1 (pointer 0), sliced over the window [0, 2):
the slice binds position 1 to the same pointer. -/
theorem C6_slice_window_witness :
    ((SparseVec.sliceGo ⟨⟨[1], false⟩, [(1, some 0)], 2⟩ 0 2)).cell? 1 =
      some (some 0) := by
  have hσ0 : Store.Wf ⟨[(0, NEW_SCALAR 5)], 1⟩ := ⟨by decide, by decide⟩
  have hv0 : WfVec ⟨⟨[1], false⟩, [(1, some 0)], 2⟩ ⟨[(0, NEW_SCALAR 5)], 1⟩ := by
    refine ⟨by decide, by decide, by decide, ?_⟩
    intro e he
    rw [List.mem_singleton] at he
    subst he
    exact ⟨by decide, by decide, 0, rfl, by decide, by decide⟩
  obtain ⟨_, hmid, _⟩ := C6_slice_window_aliases ⟨⟨[1], false⟩, [(1, some 0)], 2⟩
    ⟨[(0, NEW_SCALAR 5)], 1⟩ 0 2 hσ0 hv0 (by decide) (by decide) (by decide)
  simpa using hmid 1 (some 0) (by decide) (by decide) (by decide)

/-! C10: IsSymmetric ignores its epsilon argument. -/

/-- Claim C10: IsSymmetric's result is independent of the epsilon argument (the
comparison uses the fixed tolerance 1e-12; epsilon is never read), and a
non-square matrix always yields false. -/
theorem C10_isSymmetric_epsilon_independent (m : SparseMat) (σ : Store)
    (e1 e2 : ℚ) :
    m.isSymmetricGo σ e1 = m.isSymmetricGo σ e2 ∧
    (m.rows ≠ m.cols → m.isSymmetricGo σ e1 = some false) := by
  refine ⟨rfl, fun h => ?_⟩
  simp [SparseMat.isSymmetricGo, h]

/-- Claim C10 (witness): the epsilon-independence theorem applied to the 1 by 2
null matrix with epsilons 1 and 2, whose non-square shape yields false. -/
theorem C10_isSymmetric_witness :
    (NULL_MATRIX 1 2).isSymmetricGo ⟨[], 0⟩ 1 =
      (NULL_MATRIX 1 2).isSymmetricGo ⟨[], 0⟩ 2 ∧
    (NULL_MATRIX 1 2).isSymmetricGo ⟨[], 0⟩ 1 = some false :=
  ⟨(C10_isSymmetric_epsilon_independent (NULL_MATRIX 1 2) ⟨[], 0⟩ 1 2).1,
   (C10_isSymmetric_epsilon_independent (NULL_MATRIX 1 2) ⟨[], 0⟩ 1 2).2
     (by decide)⟩

/-! C4: structural-zero pruning during a full iteration. -/

/-- Removing one key's binding leaves lookups at other keys unchanged. -/
theorem lookup_eraseP_ne {β : Type} {l : List (ℤ × β)} {k0 i : ℤ} (h : i ≠ k0) :
    (l.eraseP (fun e => e.1 == k0)).lookup i = l.lookup i := by
  induction l with
  | nil => rfl
  | cons e t ih =>
    by_cases he : e.1 = k0
    · rw [List.eraseP_cons_of_pos (by simpa using he)]
      have : (i == e.1) = false := by
        simp only [beq_eq_false_iff_ne, ne_eq]
        exact fun hh => h (hh.trans he)
      rcases e with ⟨a, b⟩
      rw [List.lookup_cons]
      simp only at this
      simp [this]
    · rw [List.eraseP_cons_of_neg (by simpa using he)]
      rcases e with ⟨a, b⟩
      rw [List.lookup_cons, List.lookup_cons]
      cases hia : (i == a) with
      | true => rfl
      | false => exact ih

/-- A key absent from an association list looks up to none. -/
theorem lookup_eq_none_of_not_mem {β : Type} {l : List (ℤ × β)} {k : ℤ}
    (h : k ∉ l.map Prod.fst) : l.lookup k = none := by
  induction l with
  | nil => rfl
  | cons e t ih =>
    rcases e with ⟨a, b⟩
    rw [List.lookup_cons]
    have hka : (k == a) = false := by
      simp only [beq_eq_false_iff_ne, ne_eq]
      intro hh
      exact h (by simp [hh])
    simp only [hka]
    exact ih (fun hm => h (by simp [hm]))

/-- With distinct keys, erasing a key's binding makes it look up to none. -/
theorem lookup_eraseP_self {β : Type} {l : List (ℤ × β)} {k0 : ℤ}
    (hnd : (l.map Prod.fst).Nodup) :
    (l.eraseP (fun e => e.1 == k0)).lookup k0 = none := by
  induction l with
  | nil => rfl
  | cons e t ih =>
    have hnd' : (e.1 :: t.map Prod.fst).Nodup := by
      rw [← List.map_cons]
      exact hnd
    by_cases he : e.1 = k0
    · rw [List.eraseP_cons_of_pos (by simpa using he)]
      apply lookup_eq_none_of_not_mem
      have := (List.nodup_cons.mp hnd').1
      exact fun hm => this (he ▸ hm)
    · rw [List.eraseP_cons_of_neg (by simpa using he)]
      rcases e with ⟨a, b⟩
      rw [List.lookup_cons]
      have hka : (k0 == a) = false := by
        simp only [beq_eq_false_iff_ne, ne_eq]
        exact fun hh => he (hh.symm)
      simp only [hka]
      exact ih (List.nodup_cons.mp hnd').2

/-- Deleting one entry leaves the cells of all other keys unchanged. -/
theorem SparseVec.cellD_iterDelete_ne (v : SparseVec) (k0 i : ℤ) (h : i ≠ k0) :
    (v.iterDelete k0).cellD i = v.cellD i := by
  unfold SparseVec.cellD SparseVec.cell? SparseVec.iterDelete
  simp only
  rw [lookup_eraseP_ne h]

/-- The pruning loop stops immediately when every remaining position is a
non-structural-zero. -/
theorem vIterPrune_of_all_nonnull (σ : Store) (v : SparseVec) (t : List ℤ)
    (h : ∀ i ∈ t, nullScalarP? σ (v.cellD i) = some false) :
    vIterPrune σ v t = some (v, t) := by
  cases t with
  | nil => rfl
  | cons i rest =>
    have := h i (List.mem_cons_self _ _)
    simp [vIterPrune, this]

/-- A full iteration over positions none of which is a structural zero changes
nothing. -/
theorem vIterRun_all_nonnull (σ : Store) :
    ∀ (rem : List ℤ) (v : SparseVec),
    (∀ i ∈ rem, nullScalarP? σ (v.cellD i) = some false) →
    ∀ fuel, rem.length ≤ fuel → vIterRunAux σ fuel v rem = some v := by
  intro rem
  induction rem with
  | nil => intro v _ fuel _; cases fuel <;> rfl
  | cons h t ih =>
    intro v hall fuel hfuel
    cases fuel with
    | zero => simp at hfuel
    | succ f =>
      have hnext : vIterNext σ v (h :: t) = some (v, t) :=
        vIterPrune_of_all_nonnull σ v t
          (fun i hi => hall i (List.mem_cons_of_mem _ hi))
      simp only [vIterRunAux, hnext]
      exact ih v (fun i hi => hall i (List.mem_cons_of_mem _ hi)) f
        (Nat.le_of_succ_le_succ hfuel)

/-- A full iteration over positions of which exactly one, not the initial one,
is a structural zero deletes exactly that entry. -/
theorem vIterRun_prune_one (σ : Store) :
    ∀ (rem : List ℤ) (v : SparseVec) (k0 : ℤ),
    k0 ∈ rem → rem.head? ≠ some k0 → rem.Nodup →
    nullScalarP? σ (v.cellD k0) = some true →
    (∀ i ∈ rem, i ≠ k0 → nullScalarP? σ (v.cellD i) = some false) →
    (∀ i, i ≠ k0 → nullScalarP? σ ((v.iterDelete k0).cellD i)
      = nullScalarP? σ (v.cellD i)) →
    ∀ fuel, rem.length ≤ fuel →
    vIterRunAux σ fuel v rem = some (v.iterDelete k0) := by
  intro rem
  induction rem with
  | nil => intro v k0 hmem; cases hmem
  | cons h t ih =>
    intro v k0 hmem hhead hnd hnull hothers hpres fuel hfuel
    have hh : h ≠ k0 := by
      intro hc
      exact hhead (by simp [hc])
    have hkt : k0 ∈ t := by
      rcases List.mem_cons.mp hmem with rfl | hkt
      · exact absurd rfl hh
      · exact hkt
    cases fuel with
    | zero => simp at hfuel
    | succ f =>
      cases t with
      | nil => cases hkt
      | cons h2 t2 =>
        by_cases h2k : h2 = k0
        · subst h2k
          have hnd2 : h2 ∉ t2 := by
            have := (List.nodup_cons.mp hnd).2
            exact (List.nodup_cons.mp this).1
          have hall2 : ∀ i ∈ t2, nullScalarP? σ ((v.iterDelete h2).cellD i)
              = some false := by
            intro i hi
            have hik : i ≠ h2 := fun hc => hnd2 (hc ▸ hi)
            rw [hpres i hik]
            exact hothers i (by simp [hi]) hik
          have hnext : vIterNext σ v (h :: h2 :: t2)
              = some (v.iterDelete h2, t2) := by
            simp only [vIterNext, vIterPrune, hnull]
            exact vIterPrune_of_all_nonnull σ _ t2 hall2
          simp only [vIterRunAux, hnext]
          exact vIterRun_all_nonnull σ t2 _ hall2 f
            (by simp at hfuel ⊢; omega)
        · have hh2nn : nullScalarP? σ (v.cellD h2) = some false :=
            hothers h2 (by simp) h2k
          have hnext : vIterNext σ v (h :: h2 :: t2) = some (v, h2 :: t2) := by
            simp [vIterNext, vIterPrune, hh2nn]
          simp only [vIterRunAux, hnext]
          exact ih v k0 hkt (by simpa using h2k)
            (List.nodup_cons.mp hnd).2 hnull
            (fun i hi hik => hothers i (List.mem_cons_of_mem _ hi) hik)
            hpres f (by simp at hfuel ⊢; omega)

/-- Claim C4 (counterexample): the claim states that zeroing an occupied entry
and running one full iteration always reduces occupancy by one; when the zeroed
entry is the first occupied index the iterator starts on it and never prunes it
(pruning only inspects positions landed on after a Next), so for the
dimension-2 vector whose only entry, at index 0, is a structural zero, a full
iteration leaves occupancy at 1, not 0. -/
theorem C4_pruning_counterexample :
    SparseVec.iterFullRun ⟨⟨[0], false⟩, [(0, some 0)], 2⟩
        ⟨[(0, ⟨0, 0, [], []⟩)], 1⟩ =
      some ⟨⟨[0], true⟩, [(0, some 0)], 2⟩ ∧
    nullScalar ⟨0, 0, [], []⟩ = true ∧
    ([(0, (some 0 : Option Ptr))] : List (ℤ × Option Ptr)).length = 1 := by
  refine ⟨by decide, by decide, by decide⟩

/-- Claim C4 (amended): for a sparse vector with an occupied entry at index k0
that is a structural zero (value and all derivative/Hessian components exactly
zero), whose other stored entries are not structural zeros, and such that some
occupied index is smaller than k0 (the zeroed entry is not the iterator's
initial position), one full iteration removes exactly that entry from both the
entry map and the index structure, reducing occupancy by one, while dim() is
unchanged and a subsequent read at k0 still returns exactly 0. -/
theorem C4_structural_zero_pruning (v : SparseVec) (σ : Store) (k0 : ℤ)
    (p0 : Ptr) (s0 : SScalar) (hσ : σ.Wf) (hv : WfVec v σ)
    (hmem : (k0, some p0) ∈ v.entries)
    (hs0 : σ.get? p0 = some s0) (hnull : nullScalar s0 = true)
    (hothers : ∀ e ∈ v.entries, e.1 ≠ k0 → ∀ p s, e.2 = some p →
      σ.get? p = some s → nullScalar s = false)
    (hbefore : ∃ e ∈ v.entries, e.1 < k0) :
    ∃ v', v.iterFullRun σ = some v' ∧
      v'.n = v.n ∧
      v'.entries.length + 1 = v.entries.length ∧
      v'.cell? k0 = none ∧
      k0 ∉ v'.index.values ∧
      v'.constAtVal? σ k0 = some 0 := by
  obtain ⟨hnd, hperm, hflag, hent⟩ := hv
  have hsvperm : v.index.sortedValues.Perm (v.entries.map Prod.fst) :=
    (SpIndex.sortedValues_perm v.index).trans hperm
  have hsvnd : v.index.sortedValues.Nodup := hsvperm.nodup_iff.mpr hnd
  have hsvsorted : List.Sorted (· ≤ ·) v.index.sortedValues :=
    SpIndex.sortedValues_sorted v.index hflag
  have hk0l : k0 ∈ v.index.sortedValues :=
    hsvperm.mem_iff.mpr (List.mem_map_of_mem Prod.fst hmem)
  have hcell : v.cell? k0 = some (some p0) := lookup_of_mem_nodup hnd hmem
  have hnull0 : nullScalarP? σ (v.cellD k0) = some true := by
    unfold SparseVec.cellD
    rw [hcell]
    simp [nullScalarP?, hs0, hnull]
  have hothersnn : ∀ i ∈ v.index.sortedValues, i ≠ k0 →
      nullScalarP? σ (v.cellD i) = some false := by
    intro i hi hik
    have : i ∈ v.entries.map Prod.fst := hsvperm.mem_iff.mp hi
    obtain ⟨e, he, hkey⟩ := List.mem_map.mp this
    obtain ⟨_, _, p, hp, _, hpsome⟩ := hent e he
    obtain ⟨s, hs⟩ := Option.isSome_iff_exists.mp hpsome
    have hc : v.cell? i = some (some p) := by
      have hlk := lookup_of_mem_nodup hnd (show (e.1, e.2) ∈ v.entries from he)
      rw [hkey] at hlk
      unfold SparseVec.cell?
      rw [hlk, hp]
    have hns := hothers e he (hkey ▸ hik) p s hp hs
    unfold SparseVec.cellD
    rw [hc]
    show nullScalarP? σ (some p) = some false
    simp [nullScalarP?, hs, hns]
  have hhead : v.index.sortedValues.head? ≠ some k0 := by
    obtain ⟨e, he, helt⟩ := hbefore
    have hjl : e.1 ∈ v.index.sortedValues :=
      hsvperm.mem_iff.mpr (List.mem_map_of_mem Prod.fst he)
    rcases hls : v.index.sortedValues with _ | ⟨h, t⟩
    · rw [hls] at hk0l
      cases hk0l
    · rw [hls] at hjl hsvsorted
      intro hc
      simp only [List.head?_cons, Option.some.injEq] at hc
      subst hc
      rcases List.mem_cons.mp hjl with rfl | hjt
      · exact absurd helt (lt_irrefl _)
      · exact absurd
          (lt_of_le_of_lt (List.rel_of_sorted_cons hsvsorted e.1 hjt) helt)
          (lt_irrefl _)
  have hrun : vIterRunAux σ (v.index.sortedValues.length + 1)
      v.iterStart.1 v.iterStart.2 = some (v.iterStart.1.iterDelete k0) := by
    apply vIterRun_prune_one σ v.index.sortedValues v.iterStart.1 k0 hk0l hhead
      hsvnd hnull0 hothersnn
    · intro i hik
      rw [SparseVec.cellD_iterDelete_ne _ _ _ hik]
    · exact Nat.le_succ _
  refine ⟨v.iterStart.1.iterDelete k0, hrun, rfl, ?_, ?_, ?_, ?_⟩
  · have hlen : (v.entries.eraseP (fun e => e.1 == k0)).length
        = v.entries.length - 1 := List.length_eraseP_of_mem hmem (by simp)
    have hpos : 0 < v.entries.length := List.length_pos_of_mem hmem
    show (v.entries.eraseP (fun e => e.1 == k0)).length + 1 = v.entries.length
    rw [hlen]
    exact Nat.succ_pred_eq_of_pos hpos
  · exact lookup_eraseP_self hnd
  · exact hsvnd.not_mem_erase
  · obtain ⟨h0, hn0, _⟩ := hent (k0, some p0) hmem
    have hb : ¬(k0 < 0 ∨ v.n ≤ k0) := by
      push_neg
      exact ⟨not_lt.mp (not_lt.mpr h0), hn0⟩
    unfold SparseVec.constAtVal?
    have hcd : (v.iterStart.1.iterDelete k0).cell? k0 = none :=
      lookup_eraseP_self hnd
    rw [hcd]
    simp only [readCell]
    have : ¬(k0 < 0 ∨ (v.iterStart.1.iterDelete k0).n ≤ k0) := hb
    rw [if_neg this]

/-- Claim C4 (witness): the pruning theorem applied to the dimension-3 vector
with a nonzero entry at index 0 and a structural-zero entry at index 2: the
full iteration removes the entry at 2. -/
theorem C4_structural_zero_pruning_witness :
    ∃ v', SparseVec.iterFullRun ⟨⟨[0, 2], false⟩, [(0, some 0), (2, some 1)], 3⟩
        ⟨[(0, NEW_SCALAR 5), (1, ⟨0, 0, [], []⟩)], 2⟩ = some v' ∧
      v'.n = 3 ∧ v'.entries.length + 1 = 2 ∧ v'.cell? 2 = none ∧
      (2 : ℤ) ∉ v'.index.values ∧
      v'.constAtVal? ⟨[(0, NEW_SCALAR 5), (1, ⟨0, 0, [], []⟩)], 2⟩ 2 = some 0 := by
  have hσ : Store.Wf ⟨[(0, NEW_SCALAR 5), (1, ⟨0, 0, [], []⟩)], 2⟩ :=
    ⟨by decide, by decide⟩
  have hv : WfVec ⟨⟨[0, 2], false⟩, [(0, some 0), (2, some 1)], 3⟩
      ⟨[(0, NEW_SCALAR 5), (1, ⟨0, 0, [], []⟩)], 2⟩ := by
    refine ⟨by decide, by decide, by decide, ?_⟩
    intro e he
    rcases List.mem_cons.mp he with rfl | he2
    · exact ⟨by decide, by decide, 0, rfl, by decide, by decide⟩
    · rcases List.mem_cons.mp he2 with rfl | he3
      · exact ⟨by decide, by decide, 1, rfl, by decide, by decide⟩
      · cases he3
  have hothers : ∀ e ∈ ([(0, some 0), (2, some 1)] : List (ℤ × Option Ptr)),
      e.1 ≠ 2 → ∀ p s, e.2 = some p →
      Store.get? ⟨[(0, NEW_SCALAR 5), (1, ⟨0, 0, [], []⟩)], 2⟩ p = some s →
      nullScalar s = false := by
    intro e he hne p s hp hs
    rcases List.mem_cons.mp he with rfl | he2
    · injection hp with hp
      subst hp
      have hg : Store.get? ⟨[(0, NEW_SCALAR 5), (1, ⟨0, 0, [], []⟩)], 2⟩ 0
          = some (NEW_SCALAR 5) := by decide
      rw [hg] at hs
      injection hs with hs
      subst hs
      decide
    · rcases List.mem_cons.mp he2 with rfl | he3
      · exact absurd rfl hne
      · cases he3
  obtain ⟨v', h1, h2, h3, h4, h5, h6⟩ :=
    C4_structural_zero_pruning ⟨⟨[0, 2], false⟩, [(0, some 0), (2, some 1)], 3⟩
      ⟨[(0, NEW_SCALAR 5), (1, ⟨0, 0, [], []⟩)], 2⟩ 2 1 ⟨0, 0, [], []⟩
      hσ hv (by decide) (by decide) (by decide) hothers
      ⟨(0, some 0), by decide, by decide⟩
  exact ⟨v', h1, h2, h3, h4, h5, h6⟩

/-! C1: the joint iterator. -/

/-- A scalar with nonzero value is never a structural zero. -/
theorem nullScalar_false_of_value_ne {s : SScalar} (h : s.value ≠ 0) :
    nullScalar s = false := by
  unfold nullScalar SScalar.getValue
  rw [if_pos h]

/-- On a good side, advancing never prunes: the head is dropped and the vector
is untouched. -/
theorem vIterNext_good (σ : Store) (u : SparseVec) (x : ℤ) (xs : List ℤ)
    (h : ∀ i ∈ xs, ∃ p s, u.cell? i = some (some p) ∧ σ.get? p = some s ∧
      s.value ≠ 0) :
    vIterNext σ u (x :: xs) = some (u, xs) := by
  show vIterPrune σ u xs = some (u, xs)
  apply vIterPrune_of_all_nonnull
  intro i hi
  obtain ⟨p, s, hc, hs, hv⟩ := h i hi
  unfold SparseVec.cellD
  rw [hc]
  show nullScalarP? σ (some p) = some false
  simp [nullScalarP?, hs, nullScalar_false_of_value_ne hv]

/-- Advance with both sides exhausted: only s1 clears and s2 becomes the zero
literal. -/
theorem jNext_nil_nil (σ : Store) (a' b' : SparseVec) (idx : ℤ)
    (s1 : Option Ptr) (s2 : Option ConstSc) :
    jNext σ ⟨a', [], b', [], idx, s1, s2⟩
      = some ⟨a', [], b', [], idx, none, some (.lit 0)⟩ := rfl

/-- Advance with only side 1 live. -/
theorem jNext_cons_nil (σ : Store) (a' b' : SparseVec) (idx : ℤ)
    (s1 : Option Ptr) (s2 : Option ConstSc) (x : ℤ) (xs : List ℤ) (p : Ptr)
    (hcd : a'.cellD x = some p)
    (hnx : vIterNext σ a' (x :: xs) = some (a', xs)) :
    jNext σ ⟨a', x :: xs, b', [], idx, s1, s2⟩
      = some ⟨a', xs, b', [], x, some p, some (.lit 0)⟩ := by
  simp [jNext, jStage1, jStage2, hcd, hnx]

/-- Advance with only side 2 live. -/
theorem jNext_nil_cons (σ : Store) (a' b' : SparseVec) (idx : ℤ)
    (s1 : Option Ptr) (s2 : Option ConstSc) (y : ℤ) (ys : List ℤ)
    (cb : Option Ptr) (hcb : b'.cell? y = some cb)
    (hny : vIterNext σ b' (y :: ys) = some (b', ys)) :
    jNext σ ⟨a', [], b', y :: ys, idx, s1, s2⟩
      = some ⟨a', [], b', ys, y, none, some (.ref cb)⟩ := by
  simp [jNext, jStage1, jStage2, jGetConst, hcb, hny]

/-- Advance with side 1 strictly behind: only side 1 yields and steps. -/
theorem jNext_lt (σ : Store) (a' b' : SparseVec) (idx : ℤ)
    (s1 : Option Ptr) (s2 : Option ConstSc) (x : ℤ) (xs : List ℤ)
    (y : ℤ) (ys : List ℤ) (p : Ptr) (hxy : x < y)
    (hcd : a'.cellD x = some p)
    (hnx : vIterNext σ a' (x :: xs) = some (a', xs)) :
    jNext σ ⟨a', x :: xs, b', y :: ys, idx, s1, s2⟩
      = some ⟨a', xs, b', y :: ys, x, some p, some (.lit 0)⟩ := by
  have h1 : ¬(x > y) := not_lt.mpr (le_of_lt hxy)
  have h2 : x ≠ y := ne_of_lt hxy
  simp [jNext, jStage1, jStage2, hcd, hnx, h1, h2]

/-- Advance on an index tie: both sides yield and step. -/
theorem jNext_eq (σ : Store) (a' b' : SparseVec) (idx : ℤ)
    (s1 : Option Ptr) (s2 : Option ConstSc) (x : ℤ) (xs ys : List ℤ)
    (p : Ptr) (cb : Option Ptr)
    (hcd : a'.cellD x = some p) (hcb : b'.cell? x = some cb)
    (hnx : vIterNext σ a' (x :: xs) = some (a', xs))
    (hny : vIterNext σ b' (x :: ys) = some (b', ys)) :
    jNext σ ⟨a', x :: xs, b', x :: ys, idx, s1, s2⟩
      = some ⟨a', xs, b', ys, x, some p, some (.ref cb)⟩ := by
  simp [jNext, jStage1, jStage2, jGetConst, hcd, hcb, hnx, hny]

/-- Advance with side 2 strictly behind: only side 2 yields and steps; side 1
stays in place. -/
theorem jNext_gt (σ : Store) (a' b' : SparseVec) (idx : ℤ)
    (s1 : Option Ptr) (s2 : Option ConstSc) (x : ℤ) (xs : List ℤ)
    (y : ℤ) (ys : List ℤ) (cb : Option Ptr) (hxy : y < x)
    (hcb : b'.cell? y = some cb)
    (hny : vIterNext σ b' (y :: ys) = some (b', ys)) :
    jNext σ ⟨a', x :: xs, b', y :: ys, idx, s1, s2⟩
      = some ⟨a', x :: xs, b', ys, y, none, some (.ref cb)⟩ := by
  have h1 : x > y := hxy
  simp [jNext, jStage1, jStage2, jGetConst, hcb, hny, h1]

/-- Ok() at the end: both current scalars are zero. -/
theorem jOk_end (σ : Store) (a' b' : SparseVec) (la lb : List ℤ) (idx : ℤ) :
    jOk? σ ⟨a', la, b', lb, idx, none, some (.lit 0)⟩ = some false := by
  simp [jOk?, constScVal?]

/-- Ok() with a live nonzero side-1 scalar. -/
theorem jOk_s1 (σ : Store) (a' b' : SparseVec) (la lb : List ℤ) (idx : ℤ)
    (p : Ptr) (s2 : Option ConstSc) (s : SScalar)
    (hp : σ.get? p = some s) (hv : s.value ≠ 0) :
    jOk? σ ⟨a', la, b', lb, idx, some p, s2⟩ = some true := by
  simp [jOk?, hp, hv]

/-- Ok() with nil side 1 and a live nonzero side-2 scalar. -/
theorem jOk_s2 (σ : Store) (a' b' : SparseVec) (la lb : List ℤ) (idx : ℤ)
    (pb : Ptr) (sb : SScalar) (hpb : σ.get? pb = some sb) (hv : sb.value ≠ 0) :
    jOk? σ ⟨a', la, b', lb, idx, none, some (.ref (some pb))⟩ = some true := by
  simp [jOk?, constScVal?, hpb, hv]

/-- GetValue with a live side 1 and the zero literal on side 2. -/
theorem jGetValue_s1_lit (σ : Store) (a' b' : SparseVec) (la lb : List ℤ)
    (idx : ℤ) (p : Ptr) (s : SScalar) (hp : σ.get? p = some s) :
    jGetValue? σ ⟨a', la, b', lb, idx, some p, some (.lit 0)⟩
      = some (s.value, 0) := by
  simp [jGetValue?, constScVal?, hp]

/-- GetValue with live scalars on both sides. -/
theorem jGetValue_s1_ref (σ : Store) (a' b' : SparseVec) (la lb : List ℤ)
    (idx : ℤ) (p pb : Ptr) (s sb : SScalar)
    (hp : σ.get? p = some s) (hpb : σ.get? pb = some sb) :
    jGetValue? σ ⟨a', la, b', lb, idx, some p, some (.ref (some pb))⟩
      = some (s.value, sb.value) := by
  simp [jGetValue?, constScVal?, hp, hpb]

/-- GetValue with nil side 1 and a live side 2. -/
theorem jGetValue_none_ref (σ : Store) (a' b' : SparseVec) (la lb : List ℤ)
    (idx : ℤ) (pb : Ptr) (sb : SScalar) (hpb : σ.get? pb = some sb) :
    jGetValue? σ ⟨a', la, b', lb, idx, none, some (.ref (some pb))⟩
      = some (0, sb.value) := by
  simp [jGetValue?, constScVal?, hpb]

/-- One yielding step of the driver. -/
theorem jointRunAux_step (σ : Store) (f : ℕ) (st : JIter) (v1 v2 : ℚ)
    (tr : List (ℤ × ℚ × ℚ))
    (hok : jOk? σ st = some true) (hgv : jGetValue? σ st = some (v1, v2))
    (hnext : (jNext σ st).bind (jointRunAux σ f) = some tr) :
    jointRunAux σ (f + 1) st = some ((st.idx, v1, v2) :: tr) := by
  rcases hn : jNext σ st with _ | st'
  · rw [hn] at hnext
    simp at hnext
  · rw [hn] at hnext
    simp only [Option.some_bind] at hnext
    simp [jointRunAux, hok, hgv, hn, hnext]

/-- The final step of the driver. -/
theorem jointRunAux_end (σ : Store) (f : ℕ) (st : JIter)
    (hok : jOk? σ st = some false) :
    jointRunAux σ (f + 1) st = some [] := by
  simp [jointRunAux, hok]

/-- The value observation of a good position. -/
theorem valOf_eq {u : SparseVec} {σ : Store} {i : ℤ} {p : Ptr} {s : SScalar}
    (hc : u.cell? i = some (some p)) (hp : σ.get? p = some s) :
    valOf u σ i = s.value := by
  unfold valOf SparseVec.cellD
  rw [hc]
  show (match some p with
        | none => (0 : ℚ)
        | some p => match σ.get? p with
          | none => 0
          | some s => s.value) = s.value
  simp [hp]

/-- The joint-iteration walk: over good sides, one advance followed by the
driving loop yields a trace whose indices are exactly the union of the two
remaining snapshots, strictly ascending, and whose reported values are the
stored values, with an exact zero reported for a side absent at a position. -/
theorem jointWalk (a' b' : SparseVec) (σ : Store) :
    ∀ (n : ℕ) (la lb : List ℤ), la.length + lb.length ≤ n →
    GoodList a' σ la → GoodList b' σ lb →
    ∀ (idx : ℤ) (s1 : Option Ptr) (s2 : Option ConstSc) (fuel : ℕ),
      la.length + lb.length < fuel →
    ∃ tr, (jNext σ ⟨a', la, b', lb, idx, s1, s2⟩).bind (jointRunAux σ fuel)
        = some tr ∧
      (∀ e ∈ tr, e.1 ∈ la ∨ e.1 ∈ lb) ∧
      (∀ k : ℤ, k ∈ tr.map Prod.fst ↔ (k ∈ la ∨ k ∈ lb)) ∧
      List.Sorted (· < ·) (tr.map Prod.fst) ∧
      (∀ e ∈ tr,
        e.2.1 = (if e.1 ∈ la then valOf a' σ e.1 else 0) ∧
        e.2.2 = (if e.1 ∈ lb then valOf b' σ e.1 else 0)) := by
  intro n
  induction n with
  | zero =>
    intro la lb hlen _ _ idx s1 s2 fuel hfuel
    have h0 : la.length = 0 ∧ lb.length = 0 := by omega
    have hla : la = [] := List.length_eq_zero.mp h0.1
    have hlb : lb = [] := List.length_eq_zero.mp h0.2
    subst hla hlb
    cases fuel with
    | zero => omega
    | succ f =>
      refine ⟨[], ?_, by simp, by simp, by simp, by simp⟩
      rw [jNext_nil_nil, Option.some_bind]
      exact jointRunAux_end σ f _ (jOk_end σ a' b' [] [] idx)
  | succ m ih =>
    intro la lb hlen hga hgb idx s1 s2 fuel hfuel
    obtain ⟨hsa, hea⟩ := hga
    obtain ⟨hsb, heb⟩ := hgb
    cases fuel with
    | zero => omega
    | succ f =>
    cases la with
    | nil =>
      cases lb with
      | nil =>
        refine ⟨[], ?_, by simp, by simp, by simp, by simp⟩
        rw [jNext_nil_nil, Option.some_bind]
        exact jointRunAux_end σ f _ (jOk_end σ a' b' [] [] idx)
      | cons y ys =>
        obtain ⟨pb, sb, hcy, hpy, hvy⟩ := heb y (List.mem_cons_self _ _)
        have hny : vIterNext σ b' (y :: ys) = some (b', ys) :=
          vIterNext_good σ b' y ys
            (fun i hi => heb i (List.mem_cons_of_mem _ hi))
        obtain ⟨tr', hbind', hP1, hP2, hP3, hP4⟩ :=
          ih [] ys (by simp only [List.length_cons, List.length_nil] at hlen ⊢; omega)
            ⟨List.sorted_nil, by simp⟩ ⟨hsb.of_cons,
              fun i hi => heb i (List.mem_cons_of_mem _ hi)⟩
            y none (some (.ref (some pb))) f
            (by simp only [List.length_cons, List.length_nil] at hfuel ⊢; omega)
        have hrun : jointRunAux σ (f + 1)
            ⟨a', [], b', ys, y, none, some (.ref (some pb))⟩
            = some ((y, 0, sb.value) :: tr') :=
          jointRunAux_step σ f _ 0 sb.value tr'
            (jOk_s2 σ a' b' [] ys y pb sb hpy hvy)
            (jGetValue_none_ref σ a' b' [] ys y pb sb hpy) hbind'
        refine ⟨(y, 0, sb.value) :: tr', ?_, ?_, ?_, ?_, ?_⟩
        · rw [jNext_nil_cons σ a' b' idx s1 s2 y ys (some pb) hcy hny,
            Option.some_bind]
          exact hrun
        · intro e he
          rcases List.mem_cons.mp he with rfl | he2
          · exact Or.inr (List.mem_cons_self _ _)
          · rcases hP1 e he2 with h | h
            · cases h
            · exact Or.inr (List.mem_cons_of_mem _ h)
        · intro k
          rw [List.map_cons]
          constructor
          · intro h
            rcases List.mem_cons.mp h with rfl | h
            · exact Or.inr (List.mem_cons_self _ _)
            · rcases (hP2 k).mp h with h | h
              · exact absurd h (List.not_mem_nil k)
              · exact Or.inr (List.mem_cons_of_mem _ h)
          · rintro (h | h)
            · exact absurd h (List.not_mem_nil k)
            · rcases List.mem_cons.mp h with rfl | h
              · exact List.mem_cons_self _ _
              · exact List.mem_cons_of_mem _ ((hP2 k).mpr (Or.inr h))
        · rw [List.map_cons]
          rw [List.sorted_cons]
          refine ⟨?_, hP3⟩
          intro c hc
          obtain ⟨e, he, rfl⟩ := List.mem_map.mp hc
          rcases hP1 e he with h | h
          · cases h
          · exact List.rel_of_sorted_cons hsb e.1 h
        · intro e he
          rcases List.mem_cons.mp he with rfl | he2
          · constructor
            · simp
            · simp only [List.mem_cons, true_or, if_pos]
              exact (valOf_eq hcy hpy).symm
          · have hne : e.1 ≠ y := by
              rcases hP1 e he2 with h | h
              · cases h
              · intro hc
                exact absurd (hc ▸ List.rel_of_sorted_cons hsb e.1 h)
                  (lt_irrefl _)
            obtain ⟨h1, h2⟩ := hP4 e he2
            refine ⟨by simpa using h1, ?_⟩
            rw [h2]
            by_cases hm : e.1 ∈ ys
            · rw [if_pos hm, if_pos (List.mem_cons_of_mem _ hm)]
            · rw [if_neg hm, if_neg (by
                intro hc
                rcases List.mem_cons.mp hc with hc2 | hc2
                · exact hne hc2
                · exact hm hc2)]
    | cons x xs =>
      obtain ⟨pa, sa, hcx, hpx, hvx⟩ := hea x (List.mem_cons_self _ _)
      have hcdx : a'.cellD x = some pa := by
        unfold SparseVec.cellD
        rw [hcx]
        rfl
      have hnx : vIterNext σ a' (x :: xs) = some (a', xs) :=
        vIterNext_good σ a' x xs (fun i hi => hea i (List.mem_cons_of_mem _ hi))
      cases lb with
      | nil =>
        obtain ⟨tr', hbind', hP1, hP2, hP3, hP4⟩ :=
          ih xs [] (by simp only [List.length_cons, List.length_nil] at hlen ⊢; omega)
            ⟨hsa.of_cons, fun i hi => hea i (List.mem_cons_of_mem _ hi)⟩
            ⟨List.sorted_nil, by simp⟩
            x (some pa) (some (.lit 0)) f
            (by simp only [List.length_cons, List.length_nil] at hfuel ⊢; omega)
        have hrun : jointRunAux σ (f + 1)
            ⟨a', xs, b', [], x, some pa, some (.lit 0)⟩
            = some ((x, sa.value, 0) :: tr') :=
          jointRunAux_step σ f _ sa.value 0 tr'
            (jOk_s1 σ a' b' xs [] x pa (some (.lit 0)) sa hpx hvx)
            (jGetValue_s1_lit σ a' b' xs [] x pa sa hpx) hbind'
        refine ⟨(x, sa.value, 0) :: tr', ?_, ?_, ?_, ?_, ?_⟩
        · rw [jNext_cons_nil σ a' b' idx s1 s2 x xs pa hcdx hnx, Option.some_bind]
          exact hrun
        · intro e he
          rcases List.mem_cons.mp he with rfl | he2
          · exact Or.inl (List.mem_cons_self _ _)
          · rcases hP1 e he2 with h | h
            · exact Or.inl (List.mem_cons_of_mem _ h)
            · cases h
        · intro k
          rw [List.map_cons]
          constructor
          · intro h
            rcases List.mem_cons.mp h with rfl | h
            · exact Or.inl (List.mem_cons_self _ _)
            · rcases (hP2 k).mp h with h | h
              · exact Or.inl (List.mem_cons_of_mem _ h)
              · exact absurd h (List.not_mem_nil k)
          · rintro (h | h)
            · rcases List.mem_cons.mp h with rfl | h
              · exact List.mem_cons_self _ _
              · exact List.mem_cons_of_mem _ ((hP2 k).mpr (Or.inl h))
            · exact absurd h (List.not_mem_nil k)
        · rw [List.map_cons, List.sorted_cons]
          refine ⟨?_, hP3⟩
          intro c hc
          obtain ⟨e, he, rfl⟩ := List.mem_map.mp hc
          rcases hP1 e he with h | h
          · exact List.rel_of_sorted_cons hsa e.1 h
          · cases h
        · intro e he
          rcases List.mem_cons.mp he with rfl | he2
          · constructor
            · simp only [List.mem_cons, true_or, if_pos]
              exact (valOf_eq hcx hpx).symm
            · simp
          · have hne : e.1 ≠ x := by
              rcases hP1 e he2 with h | h
              · intro hc
                exact absurd (hc ▸ List.rel_of_sorted_cons hsa e.1 h)
                  (lt_irrefl _)
              · cases h
            obtain ⟨h1, h2⟩ := hP4 e he2
            refine ⟨?_, by simpa using h2⟩
            rw [h1]
            by_cases hm : e.1 ∈ xs
            · rw [if_pos hm, if_pos (List.mem_cons_of_mem _ hm)]
            · rw [if_neg hm, if_neg (by
                intro hc
                rcases List.mem_cons.mp hc with hc2 | hc2
                · exact hne hc2
                · exact hm hc2)]
      | cons y ys =>
        obtain ⟨pb, sb, hcy, hpy, hvy⟩ := heb y (List.mem_cons_self _ _)
        have hny : vIterNext σ b' (y :: ys) = some (b', ys) :=
          vIterNext_good σ b' y ys
            (fun i hi => heb i (List.mem_cons_of_mem _ hi))
        rcases lt_trichotomy x y with hxy | hxy | hxy
        · -- side 1 strictly behind
          have hxnb : x ∉ y :: ys := by
            intro hc
            rcases List.mem_cons.mp hc with rfl | hc2
            · exact absurd hxy (lt_irrefl _)
            · exact absurd (lt_trans hxy (List.rel_of_sorted_cons hsb x hc2))
                (lt_irrefl _)
          obtain ⟨tr', hbind', hP1, hP2, hP3, hP4⟩ :=
            ih xs (y :: ys)
              (by simp only [List.length_cons] at hlen ⊢; omega)
              ⟨hsa.of_cons, fun i hi => hea i (List.mem_cons_of_mem _ hi)⟩
              ⟨hsb, heb⟩ x (some pa) (some (.lit 0)) f
              (by simp only [List.length_cons] at hfuel ⊢; omega)
          have hrun : jointRunAux σ (f + 1)
              ⟨a', xs, b', y :: ys, x, some pa, some (.lit 0)⟩
              = some ((x, sa.value, 0) :: tr') :=
            jointRunAux_step σ f _ sa.value 0 tr'
              (jOk_s1 σ a' b' xs (y :: ys) x pa (some (.lit 0)) sa hpx hvx)
              (jGetValue_s1_lit σ a' b' xs (y :: ys) x pa sa hpx) hbind'
          refine ⟨(x, sa.value, 0) :: tr', ?_, ?_, ?_, ?_, ?_⟩
          · rw [jNext_lt σ a' b' idx s1 s2 x xs y ys pa hxy hcdx hnx,
              Option.some_bind]
            exact hrun
          · intro e he
            rcases List.mem_cons.mp he with rfl | he2
            · exact Or.inl (List.mem_cons_self _ _)
            · rcases hP1 e he2 with h | h
              · exact Or.inl (List.mem_cons_of_mem _ h)
              · exact Or.inr h
          · intro k
            rw [List.map_cons]
            constructor
            · intro h
              rcases List.mem_cons.mp h with rfl | h
              · exact Or.inl (List.mem_cons_self _ _)
              · rcases (hP2 k).mp h with h | h
                · exact Or.inl (List.mem_cons_of_mem _ h)
                · exact Or.inr h
            · rintro (h | h)
              · rcases List.mem_cons.mp h with rfl | h
                · exact List.mem_cons_self _ _
                · exact List.mem_cons_of_mem _ ((hP2 k).mpr (Or.inl h))
              · exact List.mem_cons_of_mem _ ((hP2 k).mpr (Or.inr h))
          · rw [List.map_cons, List.sorted_cons]
            refine ⟨?_, hP3⟩
            intro c hc
            obtain ⟨e, he, rfl⟩ := List.mem_map.mp hc
            rcases hP1 e he with h | h
            · exact List.rel_of_sorted_cons hsa e.1 h
            · rcases List.mem_cons.mp h with rfl | h2
              · exact hxy
              · exact lt_trans hxy (List.rel_of_sorted_cons hsb e.1 h2)
          · intro e he
            rcases List.mem_cons.mp he with rfl | he2
            · constructor
              · simp only [List.mem_cons, true_or, if_pos]
                exact (valOf_eq hcx hpx).symm
              · rw [if_neg hxnb]
            · have hne : e.1 ≠ x := by
                rcases hP1 e he2 with h | h
                · intro hc
                  exact absurd (hc ▸ List.rel_of_sorted_cons hsa e.1 h)
                    (lt_irrefl _)
                · intro hc
                  exact hxnb (hc ▸ h)
              obtain ⟨h1, h2⟩ := hP4 e he2
              refine ⟨?_, h2⟩
              rw [h1]
              by_cases hm : e.1 ∈ xs
              · rw [if_pos hm, if_pos (List.mem_cons_of_mem _ hm)]
              · rw [if_neg hm, if_neg (by
                  intro hc
                  rcases List.mem_cons.mp hc with hc2 | hc2
                  · exact hne hc2
                  · exact hm hc2)]
        · -- index tie
          subst hxy
          have hny2 : vIterNext σ b' (x :: ys) = some (b', ys) := hny
          obtain ⟨tr', hbind', hP1, hP2, hP3, hP4⟩ :=
            ih xs ys (by simp only [List.length_cons] at hlen ⊢; omega)
              ⟨hsa.of_cons, fun i hi => hea i (List.mem_cons_of_mem _ hi)⟩
              ⟨hsb.of_cons, fun i hi => heb i (List.mem_cons_of_mem _ hi)⟩
              x (some pa) (some (.ref (some pb))) f
              (by simp only [List.length_cons] at hfuel ⊢; omega)
          have hrun : jointRunAux σ (f + 1)
              ⟨a', xs, b', ys, x, some pa, some (.ref (some pb))⟩
              = some ((x, sa.value, sb.value) :: tr') :=
            jointRunAux_step σ f _ sa.value sb.value tr'
              (jOk_s1 σ a' b' xs ys x pa (some (.ref (some pb))) sa hpx hvx)
              (jGetValue_s1_ref σ a' b' xs ys x pa pb sa sb hpx hpy) hbind'
          refine ⟨(x, sa.value, sb.value) :: tr', ?_, ?_, ?_, ?_, ?_⟩
          · rw [jNext_eq σ a' b' idx s1 s2 x xs ys pa (some pb) hcdx hcy hnx
              hny2, Option.some_bind]
            exact hrun
          · intro e he
            rcases List.mem_cons.mp he with rfl | he2
            · exact Or.inl (List.mem_cons_self _ _)
            · rcases hP1 e he2 with h | h
              · exact Or.inl (List.mem_cons_of_mem _ h)
              · exact Or.inr (List.mem_cons_of_mem _ h)
          · intro k
            rw [List.map_cons]
            constructor
            · intro h
              rcases List.mem_cons.mp h with rfl | h
              · exact Or.inl (List.mem_cons_self _ _)
              · rcases (hP2 k).mp h with h | h
                · exact Or.inl (List.mem_cons_of_mem _ h)
                · exact Or.inr (List.mem_cons_of_mem _ h)
            · rintro (h | h)
              · rcases List.mem_cons.mp h with rfl | h
                · exact List.mem_cons_self _ _
                · exact List.mem_cons_of_mem _ ((hP2 k).mpr (Or.inl h))
              · rcases List.mem_cons.mp h with rfl | h
                · exact List.mem_cons_self _ _
                · exact List.mem_cons_of_mem _ ((hP2 k).mpr (Or.inr h))
          · rw [List.map_cons, List.sorted_cons]
            refine ⟨?_, hP3⟩
            intro c hc
            obtain ⟨e, he, rfl⟩ := List.mem_map.mp hc
            rcases hP1 e he with h | h
            · exact List.rel_of_sorted_cons hsa e.1 h
            · exact List.rel_of_sorted_cons hsb e.1 h
          · intro e he
            rcases List.mem_cons.mp he with rfl | he2
            · constructor
              · simp only [List.mem_cons, true_or, if_pos]
                exact (valOf_eq hcx hpx).symm
              · simp only [List.mem_cons, true_or, if_pos]
                have : b'.cell? x = some (some pb) := hcy
                exact (valOf_eq this hpy).symm
            · have hnea : e.1 ≠ x := by
                rcases hP1 e he2 with h | h
                · intro hc
                  exact absurd (hc ▸ List.rel_of_sorted_cons hsa e.1 h)
                    (lt_irrefl _)
                · intro hc
                  exact absurd (hc ▸ List.rel_of_sorted_cons hsb e.1 h)
                    (lt_irrefl _)
              obtain ⟨h1, h2⟩ := hP4 e he2
              constructor
              · rw [h1]
                by_cases hm : e.1 ∈ xs
                · rw [if_pos hm, if_pos (List.mem_cons_of_mem _ hm)]
                · rw [if_neg hm, if_neg (by
                    intro hc
                    rcases List.mem_cons.mp hc with hc2 | hc2
                    · exact hnea hc2
                    · exact hm hc2)]
              · rw [h2]
                by_cases hm : e.1 ∈ ys
                · rw [if_pos hm, if_pos (List.mem_cons_of_mem _ hm)]
                · rw [if_neg hm, if_neg (by
                    intro hc
                    rcases List.mem_cons.mp hc with hc2 | hc2
                    · exact hnea hc2
                    · exact hm hc2)]
        · -- side 2 strictly behind
          have hynb : y ∉ x :: xs := by
            intro hc
            rcases List.mem_cons.mp hc with rfl | hc2
            · exact absurd hxy (lt_irrefl _)
            · exact absurd (lt_trans hxy (List.rel_of_sorted_cons hsa y hc2))
                (lt_irrefl _)
          obtain ⟨tr', hbind', hP1, hP2, hP3, hP4⟩ :=
            ih (x :: xs) ys
              (by simp only [List.length_cons] at hlen ⊢; omega)
              ⟨hsa, hea⟩
              ⟨hsb.of_cons, fun i hi => heb i (List.mem_cons_of_mem _ hi)⟩
              y none (some (.ref (some pb))) f
              (by simp only [List.length_cons] at hfuel ⊢; omega)
          have hrun : jointRunAux σ (f + 1)
              ⟨a', x :: xs, b', ys, y, none, some (.ref (some pb))⟩
              = some ((y, 0, sb.value) :: tr') :=
            jointRunAux_step σ f _ 0 sb.value tr'
              (jOk_s2 σ a' b' (x :: xs) ys y pb sb hpy hvy)
              (jGetValue_none_ref σ a' b' (x :: xs) ys y pb sb hpy) hbind'
          refine ⟨(y, 0, sb.value) :: tr', ?_, ?_, ?_, ?_, ?_⟩
          · rw [jNext_gt σ a' b' idx s1 s2 x xs y ys (some pb) hxy hcy hny,
              Option.some_bind]
            exact hrun
          · intro e he
            rcases List.mem_cons.mp he with rfl | he2
            · exact Or.inr (List.mem_cons_self _ _)
            · rcases hP1 e he2 with h | h
              · exact Or.inl h
              · exact Or.inr (List.mem_cons_of_mem _ h)
          · intro k
            rw [List.map_cons]
            constructor
            · intro h
              rcases List.mem_cons.mp h with rfl | h
              · exact Or.inr (List.mem_cons_self _ _)
              · rcases (hP2 k).mp h with h | h
                · exact Or.inl h
                · exact Or.inr (List.mem_cons_of_mem _ h)
            · rintro (h | h)
              · exact List.mem_cons_of_mem _ ((hP2 k).mpr (Or.inl h))
              · rcases List.mem_cons.mp h with rfl | h
                · exact List.mem_cons_self _ _
                · exact List.mem_cons_of_mem _ ((hP2 k).mpr (Or.inr h))
          · rw [List.map_cons, List.sorted_cons]
            refine ⟨?_, hP3⟩
            intro c hc
            obtain ⟨e, he, rfl⟩ := List.mem_map.mp hc
            rcases hP1 e he with h | h
            · rcases List.mem_cons.mp h with rfl | h2
              · exact hxy
              · exact lt_trans hxy (List.rel_of_sorted_cons hsa e.1 h2)
            · exact List.rel_of_sorted_cons hsb e.1 h
          · intro e he
            rcases List.mem_cons.mp he with rfl | he2
            · constructor
              · rw [if_neg hynb]
              · simp only [List.mem_cons, true_or, if_pos]
                have : b'.cell? y = some (some pb) := hcy
                exact (valOf_eq this hpy).symm
            · have hne : e.1 ≠ y := by
                rcases hP1 e he2 with h | h
                · intro hc
                  exact hynb (hc ▸ h)
                · intro hc
                  exact absurd (hc ▸ List.rel_of_sorted_cons hsb e.1 h)
                    (lt_irrefl _)
              obtain ⟨h1, h2⟩ := hP4 e he2
              refine ⟨h1, ?_⟩
              rw [h2]
              by_cases hm : e.1 ∈ ys
              · rw [if_pos hm, if_pos (List.mem_cons_of_mem _ hm)]
              · rw [if_neg hm, if_neg (by
                  intro hc
                  rcases List.mem_cons.mp hc with hc2 | hc2
                  · exact hne hc2
                  · exact hm hc2)]

/-- C1 counterexample: joint iteration stops as soon as BOTH current values are
exactly zero (Ok() is value-driven), so with a stored structural zero at the
first index of a, the run ends immediately and the occupied nonzero index 3 of a
is never visited: the trace is empty, not the union of occupied indices. -/
theorem C1_joint_counterexample :
    SparseVec.jointIterate ⟨⟨[1, 3], true⟩, [(1, some 0), (3, some 1)], 4⟩
        (NIL_VECTOR 4) ⟨[(0, NEW_SCALAR 0), (1, NEW_SCALAR 5)], 2⟩
      = some [] ∧
    SparseVec.cell? ⟨⟨[1, 3], true⟩, [(1, some 0), (3, some 1)], 4⟩ 3
      = some (some 1) ∧
    Store.get? ⟨[(0, NEW_SCALAR 0), (1, NEW_SCALAR 5)], 2⟩ 1
      = some (NEW_SCALAR 5) ∧
    (NEW_SCALAR 5).value ≠ 0 ∧
    (⟨⟨[1, 3], true⟩, [(1, some 0), (3, some 1)], 4⟩ : SparseVec).n
      = (NIL_VECTOR 4).n := by
  refine ⟨?_, ?_, ?_, ?_, ?_⟩ <;> decide

/-- C1: joint iteration over two sparse vectors whose index snapshots are
strictly ascending and bound throughout to live scalars with nonzero values
yields exactly the union of the two snapshots, each index once, in strictly
ascending order, with the side absent at a yielded index reported as exactly
zero (and the present side reporting its stored value). -/
theorem C1_joint_union (a b : SparseVec) (σ : Store) (hab : a.n = b.n)
    (ha : GoodList a σ a.index.sortedValues)
    (hb : GoodList b σ b.index.sortedValues) :
    ∃ tr, SparseVec.jointIterate a b σ = some tr ∧
      (∀ k : ℤ, k ∈ tr.map Prod.fst ↔
        (k ∈ a.index.sortedValues ∨ k ∈ b.index.sortedValues)) ∧
      List.Sorted (· < ·) (tr.map Prod.fst) ∧
      (∀ e ∈ tr,
        e.2.1 = (if e.1 ∈ a.index.sortedValues then valOf a σ e.1 else 0) ∧
        e.2.2 = (if e.1 ∈ b.index.sortedValues then valOf b σ e.1 else 0)) := by
  have ha' : GoodList a.iterStart.1 σ a.index.sortedValues := ha
  have hb' : GoodList b.iterStart.1 σ b.index.sortedValues := hb
  obtain ⟨tr, hbind, _, hP2, hP3, hP4⟩ :=
    jointWalk a.iterStart.1 b.iterStart.1 σ
      (a.index.sortedValues.length + b.index.sortedValues.length)
      a.index.sortedValues b.index.sortedValues le_rfl ha' hb'
      (-1) none none
      (a.index.sortedValues.length + b.index.sortedValues.length + 1)
      (Nat.lt_succ_self _)
  have hbind' : (jNext σ ⟨a.iterStart.1, a.iterStart.2, b.iterStart.1,
      b.iterStart.2, -1, none, none⟩).bind
      (jointRunAux σ
        (a.index.sortedValues.length + b.index.sortedValues.length + 1))
      = some tr := hbind
  have hiter : SparseVec.jointIterate a b σ = some tr := by
    unfold SparseVec.jointIterate
    rcases hj : jNext σ ⟨a.iterStart.1, a.iterStart.2, b.iterStart.1,
        b.iterStart.2, -1, none, none⟩ with _ | st1
    · rw [hj] at hbind'
      simp at hbind'
    · rw [hj, Option.some_bind] at hbind'
      exact hbind'
  refine ⟨tr, hiter, hP2, hP3, fun e he => ?_⟩
  exact hP4 e he

/-- C1 witness: the theorem at a one-entry vector against an empty vector. -/
theorem C1_joint_union_witness :
    ∃ tr, SparseVec.jointIterate ⟨⟨[2], true⟩, [(2, some 0)], 3⟩ (NIL_VECTOR 3)
        ⟨[(0, NEW_SCALAR 5)], 1⟩ = some tr ∧
      (∀ k : ℤ, k ∈ tr.map Prod.fst ↔
        (k ∈ (⟨⟨[2], true⟩, [(2, some 0)], 3⟩ : SparseVec).index.sortedValues ∨
         k ∈ (NIL_VECTOR 3).index.sortedValues)) ∧
      List.Sorted (· < ·) (tr.map Prod.fst) ∧
      (∀ e ∈ tr,
        e.2.1 = (if e.1 ∈ (⟨⟨[2], true⟩, [(2, some 0)], 3⟩ :
            SparseVec).index.sortedValues
          then valOf ⟨⟨[2], true⟩, [(2, some 0)], 3⟩
            ⟨[(0, NEW_SCALAR 5)], 1⟩ e.1 else 0) ∧
        e.2.2 = (if e.1 ∈ (NIL_VECTOR 3).index.sortedValues
          then valOf (NIL_VECTOR 3) ⟨[(0, NEW_SCALAR 5)], 1⟩ e.1 else 0)) :=
  C1_joint_union ⟨⟨[2], true⟩, [(2, some 0)], 3⟩ (NIL_VECTOR 3)
    ⟨[(0, NEW_SCALAR 5)], 1⟩ rfl
    ⟨by decide, fun i hi => by
      have hi' : i ∈ [(2 : ℤ)] := hi
      have h2 : i = 2 := List.mem_singleton.mp hi'
      subst h2
      exact ⟨0, NEW_SCALAR 5, by decide, by decide, by decide⟩⟩
    ⟨by decide, fun i hi => by
      simp [NIL_VECTOR, SpIndex.sortedValues, List.insertionSort] at hi⟩

/-! C8: INDEX_SLICE.clone and the sortedness flag. -/

/-- Claim C8 (counterexample): the claim states that a clone of a sorted index
structure is marked sorted; for the sorted structure with values [0] the clone's
sortedness flag is false, differing from the original's true. -/
theorem C8_clone_flag_counterexample :
    ¬ ((INDEX_SLICE.clone ⟨[0], true⟩).values = ([0] : List ℤ) ∧
       (INDEX_SLICE.clone ⟨[0], true⟩).isSorted = true) := by
  decide

/-- Claim C8 (amended): clone() copies the values sequence, but the sortedness
flag of the clone is always false (the zero value of the freshly built struct),
even when the original is marked sorted. -/
theorem C8_clone_values_flag (s : INDEX_SLICE) :
    (INDEX_SLICE.clone s).values = s.values ∧
    (INDEX_SLICE.clone s).isSorted = false := by
  exact ⟨rfl, rfl⟩

/-! C5: Permute validation. -/

/-- Helper: the permute scan reports an error exactly when some remaining target
is out of range. -/
theorem permuteLoop_err_iff (n : ℤ) (pi : List ℤ) :
    ∀ (i : ℕ) (v : SparseVec),
      (SparseVec.permuteLoop n v i pi).2.isSome = true ↔ ∃ p ∈ pi, p < 0 ∨ n ≤ p := by
  induction pi with
  | nil => intro i v; simp [SparseVec.permuteLoop]
  | cons p rest ih =>
    intro i v
    by_cases hp : p < 0 ∨ n ≤ p
    · simp [SparseVec.permuteLoop, hp]
    · simp only [SparseVec.permuteLoop, if_neg hp, ih]
      constructor
      · intro ⟨q, hq, hbad⟩; exact ⟨q, List.mem_cons_of_mem _ hq, hbad⟩
      · intro ⟨q, hq, hbad⟩
        rcases List.mem_cons.mp hq with h | h
        · exact absurd (h ▸ hbad) hp
        · exact ⟨q, h, hbad⟩

/-- Claim C5 (counterexample): the claim requires a pi that repeats an in-range
value to be rejected; on the dimension-2 vector with pi = [0,0] (in range, not
injective) Permute returns no error. -/
theorem C5_permute_counterexample :
    ((NIL_VECTOR 2).permuteGo [0, 0]).2 = none ∧
    ¬ List.Nodup ([0, 0] : List ℤ) ∧ (0 : ℤ) ∈ ([0, 0] : List ℤ) ∧
    (0 : ℤ) < 2 := by
  refine ⟨by decide, by decide, by decide, by decide⟩

/-- Claim C5 (amended): Permute fails exactly when pi's length differs from the
declared dimension or some pi[i] lies outside [0, dim()); a pi that repeats an
in-range value is accepted without error (no bijection check is performed). -/
theorem C5_permute_err_iff (v : SparseVec) (pi : List ℤ) :
    (v.permuteGo pi).2.isSome = true ↔
      ((pi.length : ℤ) ≠ v.n ∨ ∃ p ∈ pi, p < 0 ∨ v.n ≤ p) := by
  unfold SparseVec.permuteGo
  by_cases hlen : (pi.length : ℤ) ≠ v.n
  · simp [hlen]
  · simp only [if_neg hlen]
    have h := permuteLoop_err_iff v.n pi 0 v
    rcases hres : SparseVec.permuteLoop v.n v 0 pi with ⟨v', e⟩
    rw [hres] at h
    cases e with
    | none =>
      simp only at h ⊢
      simp only [Option.isSome_none, Bool.false_eq_true, false_iff] at h ⊢
      push_neg at h ⊢
      exact ⟨not_not.mp hlen, h⟩
    | some msg =>
      simp only at h ⊢
      simp only [Option.isSome_some, true_iff] at h
      simp only [Option.isSome_some, true_iff]
      exact Or.inr h

/-! C9: the backing-index inverse ij against the affine index map. -/

/-- Claim C9 (code evaluated at the failing input): on the fresh (non-transposed,
unsliced) 2 by 2 sparse matrix, index(0,1) is backing position 1, but ij(1)
returns (1,0) rather than (0,1): the non-transposed branch of ij inverts the
transposed orientation's index formula (and vice versa), so ij is not a left
inverse of the index map there. -/
theorem C9_ij_not_left_inverse :
    (NULL_MATRIX 2 2).indexGo? 0 1 = some 1 ∧
    (NULL_MATRIX 2 2).ijGo 1 = (1, 0) ∧
    (NULL_MATRIX 2 2).ijGo 1 ≠ ((0 : ℤ), (1 : ℤ)) := by
  refine ⟨by decide, by decide, by decide⟩

/-! C2: failed Import and the target's state. -/

/-- Claim C2 (counterexample): the claim states that a failed Import leaves the
target reset to empty; for the dimension-1 target vector holding one entry (key
0, pointer 0, the store mapping pointer 0 to the scalar 5) and the malformed
input line "abc", Import returns an error and the target still holds its prior
entry: it is not reset to empty. -/
theorem C2_import_counterexample :
    vImportGo ⟨⟨[0], false⟩, [(0, some 0)], 1⟩ ⟨[(0, NEW_SCALAR 5)], 1⟩
        [['a', 'b', 'c']] =
      .goErr (⟨⟨[0], false⟩, [(0, some 0)], 1⟩, ⟨[(0, NEW_SCALAR 5)], 1⟩) ∧
    (⟨⟨[0], false⟩, [(0, some 0)], 1⟩ : SparseVec).entries ≠ [] := by
  exact ⟨by decide, by decide⟩

/-- Claim C2 (amended): a failed Import of a sparse vector (iterator variant) or
of a sparse matrix returns an error and leaves the target and the scalar store
exactly unchanged — the target keeps its prior contents and is not reset to
empty. (The channel-variant vector Import instead resets the target first and
writes parsed entries into it directly, so it can be left partially populated on
error.) -/
theorem C2_import_err_leaves_target_unchanged
    (v : SparseVec) (σ : Store) (lines : List (List Char)) (s : SparseVec × Store)
    (m : SparseMat) (σm : Store) (lm : List (List Char)) (t : SparseMat × Store)
    (h1 : vImportGo v σ lines = .goErr s)
    (h2 : mImportGo m σm lm = .goErr t) :
    s = (v, σ) ∧ t = (m, σm) := by
  constructor
  · unfold vImportGo at h1
    split at h1
    · injection h1 with h; exact h.symm
    · split at h1
      · exact GoOutcome.noConfusion h1
      · exact GoOutcome.noConfusion h1
  · unfold mImportGo at h2
    repeat' split at h2
    all_goals
      first
      | (injection h2 with h; exact h.symm)
      | exact GoOutcome.noConfusion h2

/-- Claim C2 (witness): the amended theorem applied to the empty vector target
with input line "x" (one field, no colon) and the 0 by 0 matrix target with the
one-field header "x", both of which make Import return an error. -/
theorem C2_import_err_witness :
    ((NIL_VECTOR 0, (⟨[], 0⟩ : Store)) = (NIL_VECTOR 0, (⟨[], 0⟩ : Store))) ∧
    ((NULL_MATRIX 0 0, (⟨[], 0⟩ : Store)) = (NULL_MATRIX 0 0, (⟨[], 0⟩ : Store))) :=
  C2_import_err_leaves_target_unchanged
    (NIL_VECTOR 0) ⟨[], 0⟩ [['x']] (NIL_VECTOR 0, ⟨[], 0⟩)
    (NULL_MATRIX 0 0) ⟨[], 0⟩ [['x']] (NULL_MATRIX 0 0, ⟨[], 0⟩)
    (by decide) (by decide)

/-! C3: Tip versus the T view. First, the cell-level effect of setCell and
swapCells. -/

/-- Rewriting the entries of one key leaves lookups at other keys unchanged. -/
theorem lookup_map_setkey {β : Type} (l : List (ℤ × β)) (k : ℤ) (c : β)
    (q : ℤ) (h : q ≠ k) :
    (l.map (fun e => if e.1 = k then (k, c) else e)).lookup q = l.lookup q := by
  induction l with
  | nil => rfl
  | cons e rest ih =>
    rcases e with ⟨a, b⟩
    by_cases ha : a = k
    · subst ha
      have hq : (q == a) = false := by simpa using h
      simp [List.lookup_cons, hq, ih]
    · simp only [List.map_cons, if_neg ha, List.lookup_cons]
      cases hq : (q == a) with
      | true => rfl
      | false => exact ih

/-- Rewriting the entries of a present key makes its lookup the new value. -/
theorem lookup_map_setkey_self {β : Type} (l : List (ℤ × β)) (k : ℤ) (c : β)
    (h : (l.lookup k).isSome) :
    (l.map (fun e => if e.1 = k then (k, c) else e)).lookup k = some c := by
  induction l with
  | nil => simp [List.lookup] at h
  | cons e rest ih =>
    rcases e with ⟨a, b⟩
    by_cases ha : a = k
    · subst ha
      simp [List.lookup_cons]
    · have hq : (k == a) = false := by simpa using (Ne.symm ha)
      rw [List.lookup_cons] at h
      simp only [hq] at h
      simp only [List.map_cons, if_neg ha, List.lookup_cons, hq]
      exact ih h

/-- Appending a binding for an absent key makes its lookup the new value. -/
theorem lookup_append_sing_self {β : Type} (l : List (ℤ × β)) (k : ℤ) (c : β)
    (h : l.lookup k = none) :
    (l ++ [(k, c)]).lookup k = some c := by
  induction l with
  | nil => simp [List.lookup_cons]
  | cons e rest ih =>
    rcases e with ⟨a, b⟩
    rw [List.lookup_cons] at h
    rw [List.cons_append, List.lookup_cons]
    cases hq : (k == a) with
    | true =>
      simp only [hq] at h
      exact absurd h (by simp)
    | false =>
      simp only [hq] at h
      exact ih h

/-- Appending a binding for one key leaves lookups at other keys unchanged. -/
theorem lookup_append_sing_ne {β : Type} (l : List (ℤ × β)) (k q : ℤ) (c : β)
    (h : q ≠ k) :
    (l ++ [(k, c)]).lookup q = l.lookup q := by
  induction l with
  | nil =>
    have hq : (q == k) = false := by simpa using h
    simp [List.lookup_cons, hq, List.lookup]
  | cons e rest ih =>
    rcases e with ⟨a, b⟩
    rw [List.cons_append, List.lookup_cons, List.lookup_cons]
    cases hq : (q == a) with
    | true => rfl
    | false => exact ih

/-- setCell installs the new binding at its key. -/
theorem SparseVec.cell_setCell_self (v : SparseVec) (k : ℤ) (c : Option Ptr) :
    (v.setCell k c).cell? k = some c := by
  unfold SparseVec.setCell SparseVec.cell?
  by_cases h : (v.entries.lookup k).isSome
  · simp only [h, if_true]
    exact lookup_map_setkey_self v.entries k c h
  · have h' : v.entries.lookup k = none := by
      cases hl : v.entries.lookup k
      · rfl
      · rw [hl] at h
        simp at h
    simp only [h, if_false]
    exact lookup_append_sing_self v.entries k c h'

/-- setCell leaves the bindings of all other keys unchanged. -/
theorem SparseVec.cell_setCell_ne (v : SparseVec) (k q : ℤ) (c : Option Ptr)
    (h : q ≠ k) : (v.setCell k c).cell? q = v.cell? q := by
  unfold SparseVec.setCell SparseVec.cell?
  by_cases hs : (v.entries.lookup k).isSome
  · simp only [hs, if_true]
    exact lookup_map_setkey v.entries k c q h
  · simp only [hs, if_false]
    exact lookup_append_sing_ne v.entries k q c h

/-- The total cell read after a setCell. -/
theorem SparseVec.cellD_setCell (v : SparseVec) (k q : ℤ) (c : Option Ptr) :
    (v.setCell k c).cellD q = if q = k then c else v.cellD q := by
  unfold SparseVec.cellD
  by_cases h : q = k
  · subst h
    rw [SparseVec.cell_setCell_self]
    simp
  · rw [SparseVec.cell_setCell_ne v k q c h, if_neg h]

/-- The total cell read after a map swap: the two positions exchange their
(possibly nil, possibly absent-as-nil) bindings, all others are unchanged. -/
theorem SparseVec.cellD_swapCells (v : SparseVec) (i j p : ℤ) :
    (v.swapCells i j).cellD p =
      if p = j then v.cellD i else if p = i then v.cellD j else v.cellD p := by
  unfold SparseVec.swapCells
  simp only [SparseVec.cellD_setCell]

/-- setCell does not change the declared dimension. -/
theorem SparseVec.n_setCell (v : SparseVec) (k : ℤ) (c : Option Ptr) :
    (v.setCell k c).n = v.n := rfl

/-- The map swap does not change the declared dimension. -/
theorem SparseVec.n_swapCells (v : SparseVec) (i j : ℤ) :
    (v.swapCells i j).n = v.n := rfl

/-- A total read of a live pointer pins down the underlying map binding. -/
theorem SparseVec.cell_of_cellD_some (v : SparseVec) (q : ℤ) (p : Ptr)
    (h : v.cellD q = some p) : v.cell? q = some (some p) := by
  unfold SparseVec.cellD at h
  cases hc : v.cell? q with
  | none =>
    rw [hc] at h
    simp at h
  | some c =>
    rw [hc] at h
    simp only [Option.getD_some] at h
    rw [h]

/-! Arithmetic of the Tip cycle successor. -/

/-- The successor fixes position 0. -/
theorem sigmaGo_zero (rows mn : ℤ) : sigmaGo rows mn 0 = 0 := by
  unfold sigmaGo
  by_cases h : (0 : ℤ) ≠ mn - 1
  · rw [if_pos h, mul_zero, Int.zero_tmod]
  · rw [if_neg h]

/-- The successor keeps positions inside [0, mn) when rows is nonnegative. -/
theorem sigmaGo_mem (rows mn : ℤ) (hr : 0 ≤ rows) (k : ℤ)
    (h0 : 0 ≤ k) (h1 : k < mn) :
    0 ≤ sigmaGo rows mn k ∧ sigmaGo rows mn k < mn := by
  unfold sigmaGo
  by_cases hk : k ≠ mn - 1
  · rw [if_pos hk]
    have hd : 0 < mn - 1 := by omega
    refine ⟨Int.tmod_nonneg _ (mul_nonneg hr h0), ?_⟩
    have := Int.tmod_lt_of_pos (rows * k) hd
    omega
  · rw [if_neg hk]
    exact ⟨h0, h1⟩

/-- The successor is injective on [0, mn) when mn = rows * cols. -/
theorem sigmaGo_inj (rows cols mn : ℤ) (hr : 1 ≤ rows) (hc : 1 ≤ cols)
    (hmn : mn = rows * cols) (k k' : ℤ)
    (h0 : 0 ≤ k) (h1 : k < mn) (h0' : 0 ≤ k') (h1' : k' < mn)
    (he : sigmaGo rows mn k = sigmaGo rows mn k') : k = k' := by
  unfold sigmaGo at he
  by_cases hk : k = mn - 1 <;> by_cases hk' : k' = mn - 1
  · rw [hk, hk']
  · exfalso
    rw [if_neg (fun h => h hk), if_pos hk'] at he
    have hd : 0 < mn - 1 := by omega
    have := Int.tmod_lt_of_pos (rows * k') hd
    omega
  · exfalso
    rw [if_pos hk, if_neg (fun h => h hk')] at he
    have hd : 0 < mn - 1 := by omega
    have := Int.tmod_lt_of_pos (rows * k) hd
    omega
  · rw [if_pos hk, if_pos hk'] at he
    have hd : 0 < mn - 1 := by omega
    have ht1 : Int.tmod (rows * k) (mn - 1) = (rows * k) % (mn - 1) :=
      Int.tmod_eq_emod (mul_nonneg (by omega) h0) (by omega)
    have ht2 : Int.tmod (rows * k') (mn - 1) = (rows * k') % (mn - 1) :=
      Int.tmod_eq_emod (mul_nonneg (by omega) h0') (by omega)
    rw [ht1, ht2] at he
    have hmod : Int.ModEq (mn - 1) (rows * k) (rows * k') := he
    have hdvd : (mn - 1) ∣ (rows * k' - rows * k) := Int.ModEq.dvd hmod
    have hdvd2 : (mn - 1) ∣ cols * (rows * k' - rows * k) :=
      Dvd.dvd.mul_left hdvd cols
    have hre : cols * (rows * k' - rows * k) = mn * (k' - k) := by
      rw [hmn]
      ring
    rw [hre] at hdvd2
    have hdvd3 : (mn - 1) ∣ (k' - k) := by
      have h4 : (mn - 1) ∣ (mn - 1) * (k' - k) := Dvd.intro _ rfl
      have h5 : mn * (k' - k) - (mn - 1) * (k' - k) = k' - k := by ring
      calc (mn - 1) ∣ mn * (k' - k) - (mn - 1) * (k' - k) :=
            dvd_sub hdvd2 h4
        _ = k' - k := h5
    rcases hdvd3 with ⟨t, ht⟩
    rcases lt_trichotomy t 0 with h | h | h
    · exfalso
      have h6 : (mn - 1) * t ≤ (mn - 1) * (-1) :=
        mul_le_mul_of_nonneg_left (by omega) (by omega)
      have h7 : (mn - 1) * (-1) = -(mn - 1) := by ring
      omega
    · rw [h, mul_zero] at ht
      omega
    · exfalso
      have h6 : (mn - 1) * 1 ≤ (mn - 1) * t :=
        mul_le_mul_of_nonneg_left (by omega) (by omega)
      have h7 : (mn - 1) * 1 = mn - 1 := by ring
      omega

/-- All iterates of the successor stay inside [0, mn). -/
theorem sigmaGo_iterate_mem (rows mn : ℤ) (hr : 0 ≤ rows) (k : ℤ)
    (h0 : 0 ≤ k) (h1 : k < mn) (i : ℕ) :
    0 ≤ (sigmaGo rows mn)^[i] k ∧ (sigmaGo rows mn)^[i] k < mn := by
  induction i with
  | zero => simpa using ⟨h0, h1⟩
  | succ n ih =>
    rw [Function.iterate_succ_apply']
    exact sigmaGo_mem rows mn hr _ ih.1 ih.2

/-- Peeling equal iterates down to an orbit return, by injectivity. -/
theorem sigmaGo_iterate_peel (rows cols mn : ℤ) (hr : 1 ≤ rows) (hc : 1 ≤ cols)
    (hmn : mn = rows * cols) (c : ℤ) (h0 : 0 ≤ c) (h1 : c < mn) :
    ∀ a b : ℕ, a ≤ b → (sigmaGo rows mn)^[a] c = (sigmaGo rows mn)^[b] c →
      (sigmaGo rows mn)^[b - a] c = c := by
  intro a
  induction a with
  | zero =>
    intro b _ h
    simpa using h.symm
  | succ n ih =>
    intro b hab h
    cases b with
    | zero => omega
    | succ b' =>
      have hab' : n ≤ b' := by omega
      rw [Function.iterate_succ_apply', Function.iterate_succ_apply'] at h
      have hm1 := sigmaGo_iterate_mem rows mn (by omega) c h0 h1 n
      have hm2 := sigmaGo_iterate_mem rows mn (by omega) c h0 h1 b'
      have h' : (sigmaGo rows mn)^[n] c = (sigmaGo rows mn)^[b'] c :=
        sigmaGo_inj rows cols mn hr hc hmn _ _ hm1.1 hm1.2 hm2.1 hm2.2 h
      have := ih b' hab' h'
      simpa [Nat.succ_sub_succ] using this

/-- Every orbit of the successor returns to its start within mn steps. -/
theorem sigmaGo_return (rows cols mn : ℤ) (hr : 1 ≤ rows) (hc : 1 ≤ cols)
    (hmn : mn = rows * cols) (c : ℤ) (h0 : 0 ≤ c) (h1 : c < mn) :
    ∃ m : ℕ, 1 ≤ m ∧ m ≤ mn.toNat ∧ (sigmaGo rows mn)^[m] c = c := by
  have hmn1 : 1 ≤ mn := by
    rw [hmn]
    nlinarith
  by_cases hce : c = mn - 1
  · refine ⟨1, le_rfl, by omega, ?_⟩
    rw [Function.iterate_one]
    unfold sigmaGo
    rw [if_neg (fun h => h hce)]
  · have hd : 0 < mn - 1 := by omega
    have hit : ∀ i : ℕ, 0 ≤ (sigmaGo rows mn)^[i] c ∧
        (sigmaGo rows mn)^[i] c < mn - 1 := by
      intro i
      induction i with
      | zero => simpa using ⟨h0, by omega⟩
      | succ n ih =>
        rw [Function.iterate_succ_apply']
        set x := (sigmaGo rows mn)^[n] c with hxdef
        have hne : x ≠ mn - 1 := by omega
        have hstep : sigmaGo rows mn x = Int.tmod (rows * x) (mn - 1) := by
          unfold sigmaGo
          rw [if_pos hne]
        rw [hstep]
        exact ⟨Int.tmod_nonneg _ (mul_nonneg (by omega) ih.1),
          Int.tmod_lt_of_pos _ hd⟩
    have hmaps : ∀ i ∈ Finset.range ((mn - 1).toNat + 1),
        (sigmaGo rows mn)^[i] c ∈ Finset.Ico (0 : ℤ) (mn - 1) := by
      intro i _
      exact Finset.mem_Ico.mpr (hit i)
    have hcard : (Finset.Ico (0 : ℤ) (mn - 1)).card
        < (Finset.range ((mn - 1).toNat + 1)).card := by
      rw [Finset.card_range, Int.card_Ico (0 : ℤ) (mn - 1)]
      omega
    obtain ⟨i, hi, j, hj, hne, heq⟩ :=
      Finset.exists_ne_map_eq_of_card_lt_of_maps_to hcard hmaps
    rw [Finset.mem_range] at hi hj
    rcases Nat.lt_or_ge i j with hij | hij
    · exact ⟨j - i, by omega, by omega,
        sigmaGo_iterate_peel rows cols mn hr hc hmn c h0 h1 i j (by omega) heq⟩
    · have hij' : j < i := by omega
      exact ⟨i - j, by omega, by omega,
        sigmaGo_iterate_peel rows cols mn hr hc hmn c h0 h1 j i (by omega)
          heq.symm⟩

/-- Before the first return, the orbit of a leader has no repetitions. -/
theorem sigmaGo_orbit_distinct (rows cols mn : ℤ) (hr : 1 ≤ rows)
    (hc : 1 ≤ cols) (hmn : mn = rows * cols) (c : ℤ) (hc0 : 0 ≤ c)
    (hc1 : c < mn) (m0 : ℕ)
    (hmin : ∀ t, 1 ≤ t → t < m0 → (sigmaGo rows mn)^[t] c ≠ c) :
    ∀ i j : ℕ, i < j → j < m0 →
      (sigmaGo rows mn)^[i] c ≠ (sigmaGo rows mn)^[j] c := by
  intro i j hij hj he
  have := sigmaGo_iterate_peel rows cols mn hr hc hmn c hc0 hc1 i j
    (le_of_lt hij) he
  exact hmin (j - i) (by omega) (by omega) this

/-- One unfolding of the inner cycle loop. -/
theorem tipInner_step (rows mn cycle : ℤ) (fuel : ℕ) (k : ℤ) (vis : List ℤ)
    (v : SparseVec) :
    tipInner rows mn cycle (fuel + 1) k vis v =
      if sigmaGo rows mn k < 0 ∨ mn ≤ sigmaGo rows mn k then none
      else if sigmaGo rows mn k = cycle then
        some (sigmaGo rows mn k :: vis, v.swapCells (sigmaGo rows mn k) cycle)
      else tipInner rows mn cycle fuel (sigmaGo rows mn k)
        (sigmaGo rows mn k :: vis) (v.swapCells (sigmaGo rows mn k) cycle) :=
  rfl

/-- The inner cycle loop, entered at orbit step s of leader c with period m0,
terminates within the remaining orbit length, marks exactly the rest of the
orbit as visited, rotates the backing cells one step along the orbit, and
leaves every other cell unchanged. -/
theorem tipInner_spec (rows cols mn : ℤ) (hr : 1 ≤ rows) (hc : 1 ≤ cols)
    (hmn : mn = rows * cols) (c : ℤ) (hc0 : 0 ≤ c) (hc1 : c < mn)
    (m0 : ℕ) (hret : (sigmaGo rows mn)^[m0] c = c)
    (hmin : ∀ t, 1 ≤ t → t < m0 → (sigmaGo rows mn)^[t] c ≠ c) :
    ∀ t s, s + 1 + t = m0 →
    ∀ (v : SparseVec) (vis : List ℤ) (fuel : ℕ), t + 1 ≤ fuel →
    ∃ vis1 v1,
      tipInner rows mn c fuel ((sigmaGo rows mn)^[s] c) vis v
          = some (vis1, v1) ∧
      v1.n = v.n ∧
      (∀ p : ℤ, p ∈ vis1 ↔
        (∃ i, s + 1 ≤ i ∧ i ≤ m0 ∧ p = (sigmaGo rows mn)^[i] c) ∨ p ∈ vis) ∧
      (∀ i, s + 1 ≤ i → i + 1 ≤ m0 →
        v1.cellD ((sigmaGo rows mn)^[i] c)
          = if i = s + 1 then v.cellD c
            else v.cellD ((sigmaGo rows mn)^[i - 1] c)) ∧
      (v1.cellD c = if s + 1 = m0 then v.cellD c
        else v.cellD ((sigmaGo rows mn)^[m0 - 1] c)) ∧
      (∀ p : ℤ, p ≠ c →
        (∀ i, s + 1 ≤ i → i + 1 ≤ m0 → p ≠ (sigmaGo rows mn)^[i] c) →
        v1.cellD p = v.cellD p) := by
  have hdist := sigmaGo_orbit_distinct rows cols mn hr hc hmn c hc0 hc1 m0 hmin
  intro t
  induction t with
  | zero =>
    intro s hsum v vis fuel hfuel
    have hs1 : s + 1 = m0 := by omega
    cases fuel with
    | zero => omega
    | succ f =>
      have hk1 : sigmaGo rows mn ((sigmaGo rows mn)^[s] c) = c := by
        have h := Function.iterate_succ_apply' (sigmaGo rows mn) s c
        have hs1' : s.succ = m0 := hs1
        rw [← h, hs1']
        exact hret
      rw [tipInner_step, hk1, if_neg (by omega : ¬(c < 0 ∨ mn ≤ c)),
        if_pos rfl]
      refine ⟨c :: vis, v.swapCells c c, rfl, SparseVec.n_swapCells v c c,
        ?_, ?_, ?_, ?_⟩
      · intro p
        constructor
        · intro hp
          rcases List.mem_cons.mp hp with rfl | hp2
          · exact Or.inl ⟨m0, by omega, le_rfl, by rw [hret]⟩
          · exact Or.inr hp2
        · rintro (⟨i, hi1, hi2, rfl⟩ | hp2)
          · have : i = m0 := by omega
            subst this
            rw [hret]
            exact List.mem_cons_self _ _
          · exact List.mem_cons_of_mem _ hp2
      · intro i hi1 hi2
        exact (by omega : False).elim
      · rw [if_pos hs1, SparseVec.cellD_swapCells, if_pos rfl]
      · intro p hpc _
        rw [SparseVec.cellD_swapCells, if_neg hpc, if_neg hpc]
  | succ t ih =>
    intro s hsum v vis fuel hfuel
    have hs1m : s + 1 < m0 := by omega
    cases fuel with
    | zero => omega
    | succ f =>
      have hk1 : sigmaGo rows mn ((sigmaGo rows mn)^[s] c)
          = (sigmaGo rows mn)^[s + 1] c :=
        (Function.iterate_succ_apply' _ s c).symm
      have hk1mem := sigmaGo_iterate_mem rows mn (by omega) c hc0 hc1 (s + 1)
      have hk1c : (sigmaGo rows mn)^[s + 1] c ≠ c := hmin (s + 1) (by omega) hs1m
      rw [tipInner_step, hk1, if_neg (by omega :
        ¬((sigmaGo rows mn)^[s + 1] c < 0 ∨ mn ≤ (sigmaGo rows mn)^[s + 1] c)),
        if_neg hk1c]
      obtain ⟨vis2, v2, hrun, hn2, hvisS, hD, hE, hF⟩ :=
        ih (s + 1) (by omega)
          (v.swapCells ((sigmaGo rows mn)^[s + 1] c) c)
          ((sigmaGo rows mn)^[s + 1] c :: vis) f (by omega)
      have hswap : ∀ p : ℤ,
          (v.swapCells ((sigmaGo rows mn)^[s + 1] c) c).cellD p
          = if p = c then v.cellD ((sigmaGo rows mn)^[s + 1] c)
            else if p = (sigmaGo rows mn)^[s + 1] c then v.cellD c
            else v.cellD p :=
        fun p => SparseVec.cellD_swapCells v _ c p
      refine ⟨vis2, v2, hrun, hn2.trans (SparseVec.n_swapCells v _ c),
        ?_, ?_, ?_, ?_⟩
      · intro p
        rw [hvisS p]
        constructor
        · rintro (⟨i, hi1, hi2, rfl⟩ | hp2)
          · exact Or.inl ⟨i, by omega, hi2, rfl⟩
          · rcases List.mem_cons.mp hp2 with rfl | hp3
            · exact Or.inl ⟨s + 1, by omega, by omega, rfl⟩
            · exact Or.inr hp3
        · rintro (⟨i, hi1, hi2, rfl⟩ | hp2)
          · by_cases hieq : i = s + 1
            · subst hieq
              exact Or.inr (List.mem_cons_self _ _)
            · exact Or.inl ⟨i, by omega, hi2, rfl⟩
          · exact Or.inr (List.mem_cons_of_mem _ hp2)
      · intro i hi1 hi2
        by_cases hieq : i = s + 1
        · subst hieq
          rw [if_pos rfl]
          have hpo : ∀ i', s + 1 + 1 ≤ i' → i' + 1 ≤ m0 →
              (sigmaGo rows mn)^[s + 1] c ≠ (sigmaGo rows mn)^[i'] c :=
            fun i' h1' h2' => hdist (s + 1) i' (by omega) (by omega)
          rw [hF _ hk1c hpo, hswap, if_neg hk1c, if_pos rfl]
        · have hi1' : s + 2 ≤ i := by omega
          rw [if_neg hieq, hD i (by omega) hi2]
          by_cases hieq2 : i = s + 2
          · subst hieq2
            rw [if_pos rfl, hswap, if_pos rfl]
            have h21 : s + 2 - 1 = s + 1 := by omega
            rw [h21]
          · rw [if_neg hieq2, hswap,
              if_neg (hmin (i - 1) (by omega) (by omega)),
              if_neg (fun he =>
                hdist (s + 1) (i - 1) (by omega) (by omega) he.symm)]
      · rw [if_neg (by omega : ¬(s + 1 = m0)), hE]
        by_cases hm2 : s + 1 + 1 = m0
        · rw [if_pos hm2, hswap, if_pos rfl]
          have hm1 : m0 - 1 = s + 1 := by omega
          rw [hm1]
        · rw [if_neg hm2, hswap,
            if_neg (hmin (m0 - 1) (by omega) (by omega)),
            if_neg (fun he =>
              hdist (s + 1) (m0 - 1) (by omega) (by omega) he.symm)]
      · intro p hpc hpo
        rw [hF p hpc (fun i h1 h2 => hpo i (by omega) h2), hswap,
          if_neg hpc, if_neg (hpo (s + 1) (by omega) (by omega))]

/-- One unfolding of the outer loop. -/
theorem tipOuter_step (rows mn cy : ℤ) (rest vis : List ℤ) (v : SparseVec) :
    tipOuter rows mn (cy :: rest) vis v =
      if vis.contains cy then tipOuter rows mn rest vis v
      else
        match tipInner rows mn cy (mn.toNat + 1) cy vis v with
        | none => none
        | some (vis1, v1) => tipOuter rows mn rest vis1 v1 := rfl

/-- Iterating the successor from 0 stays at 0. -/
theorem sigmaGo_iterate_zero (rows mn : ℤ) (t : ℕ) :
    (sigmaGo rows mn)^[t] (0 : ℤ) = 0 := by
  induction t with
  | zero => simp
  | succ n ihn => rw [Function.iterate_succ_apply', ihn, sigmaGo_zero]

/-- The outer loop of Tip preserves the cycle invariant, never fails, and marks
every processed leader as visited. -/
theorem tipOuter_spec (rows cols mn : ℤ) (hr : 1 ≤ rows) (hc : 1 ≤ cols)
    (hmn : mn = rows * cols) (v0 : SparseVec) :
    ∀ L : List ℤ, (∀ q ∈ L, 1 ≤ q ∧ q < mn) →
    ∀ (vis : List ℤ) (v : SparseVec), TipInv rows mn v0 vis v → v.n = v0.n →
    ∃ vis1 v1, tipOuter rows mn L vis v = some (vis1, v1) ∧
      TipInv rows mn v0 vis1 v1 ∧ v1.n = v0.n ∧
      (∀ q ∈ vis, q ∈ vis1) ∧ (∀ q ∈ L, q ∈ vis1) := by
  intro L
  induction L with
  | nil =>
    intro _ vis v hInv hn
    exact ⟨vis, v, rfl, hInv, hn, fun q hq => hq, by simp⟩
  | cons cy rest ih =>
    intro hL vis v hInv hn
    obtain ⟨hO1, hO2, hO3, hO4⟩ := hInv
    by_cases hvisT : vis.contains cy = true
    · obtain ⟨vis1, v1, hrec, hInv1, hn1, hsub1, hall1⟩ :=
        ih (fun q hq => hL q (List.mem_cons_of_mem _ hq)) vis v
          ⟨hO1, hO2, hO3, hO4⟩ hn
      refine ⟨vis1, v1, ?_, hInv1, hn1, hsub1, ?_⟩
      · rw [tipOuter_step, if_pos hvisT]
        exact hrec
      · intro q hq
        rcases List.mem_cons.mp hq with rfl | hq2
        · exact hsub1 q (List.elem_iff.mp hvisT)
        · exact hall1 q hq2
    · have hq := hL cy (List.mem_cons_self _ _)
      have hcyNotMem : cy ∉ vis := fun hm => hvisT (List.elem_iff.mpr hm)
      obtain ⟨m, hm1, hmB, hretm⟩ :=
        sigmaGo_return rows cols mn hr hc hmn cy (by omega) hq.2
      have hex : ∃ t : ℕ, 1 ≤ t ∧ (sigmaGo rows mn)^[t] cy = cy :=
        ⟨m, hm1, hretm⟩
      have hm0spec := Nat.find_spec hex
      have hm0le : Nat.find hex ≤ m := Nat.find_min' hex ⟨hm1, hretm⟩
      have hminm : ∀ t, 1 ≤ t → t < Nat.find hex →
          (sigmaGo rows mn)^[t] cy ≠ cy :=
        fun t h1 h2 he => Nat.find_min hex h2 ⟨h1, he⟩
      obtain ⟨vis2, v2, hrun, hn2, hvisS, hD, hE, hF⟩ :=
        tipInner_spec rows cols mn hr hc hmn cy (by omega) hq.2
          (Nat.find hex) hm0spec.2 hminm (Nat.find hex - 1) 0
          (by omega) v vis (mn.toNat + 1) (by omega)
      rw [Function.iterate_zero_apply] at hrun
      have hOm := fun i =>
        sigmaGo_iterate_mem rows mn (by omega) cy (by omega) hq.2 i
      have hclos : ∀ (t : ℕ) (p : ℤ), p ∈ vis →
          (sigmaGo rows mn)^[t] p ∈ vis := by
        intro t
        induction t with
        | zero => simpa using fun p hp => hp
        | succ n ihn =>
          intro p hp
          rw [Function.iterate_succ_apply']
          exact hO2 _ (ihn p hp)
      have hdisj : ∀ i : ℕ, 1 ≤ i → i ≤ Nat.find hex →
          (sigmaGo rows mn)^[i] cy ∉ vis := by
        intro i h1 h2 hmem
        have h3 := hclos (Nat.find hex - i) _ hmem
        rw [← Function.iterate_add_apply] at h3
        have h4 : Nat.find hex - i + i = Nat.find hex := by omega
        rw [h4, hm0spec.2] at h3
        exact hcyNotMem h3
      have hpos : ∀ i : ℕ, i ≤ Nat.find hex →
          1 ≤ (sigmaGo rows mn)^[i] cy := by
        intro i hi
        have h0 := (hOm i).1
        by_contra hlt
        have he0 : (sigmaGo rows mn)^[i] cy = 0 := by omega
        have h5 : (sigmaGo rows mn)^[Nat.find hex] cy = 0 := by
          have h4 : Nat.find hex - i + i = Nat.find hex := by omega
          rw [← h4, Function.iterate_add_apply, he0, sigmaGo_iterate_zero]
        rw [hm0spec.2] at h5
        omega
      have hInv2 : TipInv rows mn v0 vis2 v2 := by
        refine ⟨?_, ?_, ?_, ?_⟩
        · intro p hp
          rcases (hvisS p).mp hp with ⟨i, h1, h2, rfl⟩ | hp2
          · exact ⟨hpos i h2, (hOm i).2⟩
          · exact hO1 p hp2
        · intro p hp
          rcases (hvisS p).mp hp with ⟨i, h1, h2, rfl⟩ | hp2
          · have hss := Function.iterate_succ_apply' (sigmaGo rows mn) i cy
            by_cases him : i = Nat.find hex
            · subst him
              rw [hm0spec.2]
              exact (hvisS _).mpr (Or.inl ⟨1, le_rfl, hm0spec.1,
                by rw [Function.iterate_one]⟩)
            · exact (hvisS _).mpr (Or.inl ⟨i + 1, by omega, by omega,
                hss.symm⟩)
          · exact (hvisS _).mpr (Or.inr (hO2 p hp2))
        · intro p hp
          rcases (hvisS p).mp hp with ⟨i, h1, h2, rfl⟩ | hp2
          · have hv0 : v.cellD ((sigmaGo rows mn)^[i] cy)
                = v0.cellD ((sigmaGo rows mn)^[i] cy) :=
              hO4 _ (hOm i).1 (hOm i).2 (hdisj i h1 h2)
            have hss := Function.iterate_succ_apply' (sigmaGo rows mn) i cy
            by_cases him : i = Nat.find hex
            · subst him
              rw [hm0spec.2]
              by_cases hm01 : Nat.find hex = 1
              · have hfix : sigmaGo rows mn cy = cy := by
                  have h6 := hm0spec.2
                  rw [hm01] at h6
                  simpa [Function.iterate_one] using h6
                rw [hfix, hE, if_pos (by omega)]
                exact hO4 cy (by omega) hq.2 hcyNotMem
              · have h1e : (sigmaGo rows mn)^[1] cy = sigmaGo rows mn cy := by
                  rw [Function.iterate_one]
                rw [← h1e, hD 1 le_rfl (by omega), if_pos rfl]
                exact hO4 cy (by omega) hq.2 hcyNotMem
            · rw [← hss]
              by_cases him1 : i + 1 = Nat.find hex
              · have him1' : i.succ = Nat.find hex := him1
                rw [him1', hm0spec.2, hE, if_neg (by omega)]
                have h7 : Nat.find hex - 1 = i := by omega
                rw [h7]
                exact hv0
              · have hisucc : i.succ = i + 1 := rfl
                rw [hisucc, hD (i + 1) (by omega) (by omega),
                  if_neg (by omega), show i + 1 - 1 = i from by omega]
                exact hv0
          · have hσp : sigmaGo rows mn p ∈ vis := hO2 p hp2
            have h1 : sigmaGo rows mn p ≠ cy := fun he =>
              hcyNotMem (he ▸ hσp)
            have h2 : ∀ i, 0 + 1 ≤ i → i + 1 ≤ Nat.find hex →
                sigmaGo rows mn p ≠ (sigmaGo rows mn)^[i] cy :=
              fun i hi1 hi2 he => hdisj i hi1 (by omega) (he ▸ hσp)
            rw [hF (sigmaGo rows mn p) h1 h2]
            exact hO3 p hp2
        · intro p h0p h1p hpnot
          have hpc : p ≠ cy := fun he => hpnot ((hvisS p).mpr
            (Or.inl ⟨Nat.find hex, hm0spec.1, le_rfl,
              by rw [hm0spec.2]; exact he⟩))
          have hporb : ∀ i, 0 + 1 ≤ i → i + 1 ≤ Nat.find hex →
              p ≠ (sigmaGo rows mn)^[i] cy :=
            fun i hi1 hi2 he => hpnot ((hvisS p).mpr
              (Or.inl ⟨i, hi1, by omega, he⟩))
          rw [hF p hpc hporb]
          exact hO4 p h0p h1p (fun hm => hpnot ((hvisS p).mpr (Or.inr hm)))
      obtain ⟨vis3, v3, hrec, hInv3, hn3, hsub3, hall3⟩ :=
        ih (fun q hq2 => hL q (List.mem_cons_of_mem _ hq2)) vis2 v2 hInv2
          (hn2.trans hn)
      refine ⟨vis3, v3, ?_, hInv3, hn3, ?_, ?_⟩
      · rw [tipOuter_step, if_neg hvisT, hrun]
        exact hrec
      · exact fun q hqv => hsub3 q ((hvisS q).mpr (Or.inr hqv))
      · intro q hq2
        rcases List.mem_cons.mp hq2 with rfl | hq3
        · exact hsub3 q ((hvisS q).mpr (Or.inl ⟨Nat.find hex, hm0spec.1,
            le_rfl, hm0spec.2.symm⟩))
        · exact hall3 q hq3

/-- The leader candidates of Tip's outer loop are exactly 1..mn-1. -/
theorem tip_leaders_mem (N : ℕ) (q : ℤ) :
    q ∈ ((List.range N).map Int.ofNat).tail ↔ 1 ≤ q ∧ q < (N : ℤ) := by
  cases N with
  | zero =>
    simp
    omega
  | succ n =>
    rw [List.range_succ_eq_map, List.map_cons, List.tail_cons, List.map_map]
    constructor
    · intro h
      obtain ⟨a, ha, haq⟩ := List.mem_map.mp h
      rw [List.mem_range] at ha
      have haq' : ((Nat.succ a : ℕ) : ℤ) = q := haq
      omega
    · rintro ⟨h1, h2⟩
      refine List.mem_map.mpr ⟨(q - 1).toNat, ?_, ?_⟩
      · rw [List.mem_range]
        omega
      · show ((Nat.succ ((q - 1).toNat) : ℕ) : ℤ) = q
        omega

/-- Tip succeeds on a matrix whose backing dimension is the product of its row
and column counts, swaps all the header metadata without touching the
transposition flag, and permutes the backing cells by the cycle successor:
after Tip the cell at the successor of k holds what was at k. -/
theorem tipGo_perm (M : SparseMat) (hr : 1 ≤ M.rows) (hc : 1 ≤ M.cols)
    (hmn : M.values.n = M.rows * M.cols) :
    ∃ M1, M.tipGo = some M1 ∧
      M1.rows = M.cols ∧ M1.cols = M.rows ∧
      M1.rowOffset = M.colOffset ∧ M1.colOffset = M.rowOffset ∧
      M1.rowMax = M.colMax ∧ M1.colMax = M.rowMax ∧
      M1.transposed = M.transposed ∧
      M1.values.n = M.values.n ∧
      (∀ k : ℤ, 0 ≤ k → k < M.values.n →
        M1.values.cellD (sigmaGo M.rows M.values.n k) = M.values.cellD k) := by
  have hmn1 : (1 : ℤ) ≤ M.values.n := by
    rw [hmn]
    nlinarith
  have hInv0 : TipInv M.rows M.values.n M.values [] M.values :=
    ⟨by simp, by simp, by simp, fun p _ _ _ => rfl⟩
  obtain ⟨vis1, v1, hrun, hInv1, hn1, _, hall⟩ :=
    tipOuter_spec M.rows M.cols M.values.n hr hc hmn M.values
      (((List.range (M.values.n).toNat).map Int.ofNat).tail)
      (fun q hq => by
        rw [tip_leaders_mem] at hq
        exact ⟨hq.1, by omega⟩)
      [] M.values hInv0 rfl
  have heq : M.tipGo =
      (match tipOuter M.rows M.values.n
          (((List.range (M.values.n).toNat).map Int.ofNat).tail)
          [] M.values with
        | none => none
        | some (_, w) =>
          some { M with
            values := w,
            rows := M.cols, cols := M.rows,
            rowOffset := M.colOffset, colOffset := M.rowOffset,
            rowMax := M.colMax, colMax := M.rowMax,
            tmp1 := M.tmp2, tmp2 := M.tmp1 }) := rfl
  rw [hrun] at heq
  obtain ⟨hO1, hO2, hO3, hO4⟩ := hInv1
  refine ⟨_, heq, rfl, rfl, rfl, rfl, rfl, rfl, rfl, hn1, ?_⟩
  intro k h0 h1
  show v1.cellD (sigmaGo M.rows M.values.n k) = M.values.cellD k
  by_cases hk1 : 1 ≤ k
  · have hkL : k ∈ ((List.range (M.values.n).toNat).map Int.ofNat).tail :=
      (tip_leaders_mem _ k).mpr ⟨hk1, by omega⟩
    exact hO3 k (hall k hkL)
  · have hk0 : k = 0 := by omega
    subst hk0
    rw [sigmaGo_zero]
    refine hO4 0 le_rfl (by omega) (fun hm => ?_)
    have := (hO1 0 hm).1
    omega

/-- On an unsliced row-major layout the cycle successor sends the backing index
of logical position (j, i) to the backing index of (i, j) in the swapped
layout. -/
theorem sigmaGo_transpose (rows cols mn : ℤ) (hr : 1 ≤ rows) (hc : 1 ≤ cols)
    (hmn : mn = rows * cols) (i j : ℤ) (hi0 : 0 ≤ i) (hi1 : i < cols)
    (hj0 : 0 ≤ j) (hj1 : j < rows) :
    sigmaGo rows mn (j * cols + i) = i * rows + j := by
  have hjc : j * cols ≤ (rows - 1) * cols :=
    mul_le_mul_of_nonneg_right (by omega) (by omega)
  have hir : i * rows ≤ (cols - 1) * rows :=
    mul_le_mul_of_nonneg_right (by omega) (by omega)
  have e1 : (rows - 1) * cols = rows * cols - cols := by ring
  have e2 : (cols - 1) * rows = rows * cols - rows := by ring
  have hk0 : 0 ≤ j * cols + i := by
    have := mul_nonneg hj0 (by omega : (0 : ℤ) ≤ cols)
    omega
  have hkle : j * cols + i ≤ mn - 1 := by omega
  have hrle : i * rows + j ≤ mn - 1 := by omega
  by_cases hlast : j * cols + i = mn - 1
  · have hj' : j = rows - 1 := by
      by_contra hne
      have h3 : j * cols ≤ (rows - 2) * cols :=
        mul_le_mul_of_nonneg_right (by omega) (by omega)
      have e3 : (rows - 2) * cols = rows * cols - 2 * cols := by ring
      omega
    have hi' : i = cols - 1 := by
      have h4 : j * cols = rows * cols - cols := by
        rw [hj']
        ring
      omega
    unfold sigmaGo
    rw [if_neg (fun h => h hlast), hi', hj']
    ring
  · have hd : 0 < mn - 1 := by omega
    unfold sigmaGo
    rw [if_pos hlast]
    have hrlt : i * rows + j < mn - 1 := by
      by_contra hge
      have hre : i * rows + j = mn - 1 := by omega
      have hi' : i = cols - 1 := by
        by_contra hne
        have h3 : i * rows ≤ (cols - 2) * rows :=
          mul_le_mul_of_nonneg_right (by omega) (by omega)
        have e3 : (cols - 2) * rows = rows * cols - 2 * rows := by ring
        omega
      have hj' : j = rows - 1 := by
        have h4 : i * rows = rows * cols - rows := by
          rw [hi']
          ring
        omega
      refine hlast ?_
      rw [hi', hj', hmn]
      ring
    have hr0 : 0 ≤ i * rows + j := by
      have := mul_nonneg hi0 (by omega : (0 : ℤ) ≤ rows)
      omega
    have heqm : rows * (j * cols + i) = (i * rows + j) + (mn - 1) * j := by
      rw [hmn]
      ring
    rw [Int.tmod_eq_emod (mul_nonneg (by omega) hk0) (by omega), heqm,
      Int.add_mul_emod_self_left, Int.emod_eq_of_lt hr0 hrlt]

/-- A non-transposed matrix read through the T view at (i, j) is the read of
the underlying matrix at (j, i): both resolve to the same backing index. -/
theorem T_constAtVal (M : SparseMat) (σ : Store) (hT : M.transposed = false)
    (i j : ℤ) : M.T.constAtVal? σ i j = M.constAtVal? σ j i := by
  unfold SparseMat.constAtVal? SparseMat.indexGo? SparseMat.T
  simp only [hT, Bool.not_false]
  rw [if_pos trivial, if_neg Bool.false_ne_true]
  have hiff : (i < 0 ∨ j < 0 ∨ M.cols ≤ i ∨ M.rows ≤ j)
      ↔ (j < 0 ∨ i < 0 ∨ M.rows ≤ j ∨ M.cols ≤ i) := by tauto
  by_cases h : j < 0 ∨ i < 0 ∨ M.rows ≤ j ∨ M.cols ≤ i
  · rw [if_pos (hiff.mpr h), if_pos h]
  · rw [if_neg (fun hcon => h (hiff.mp hcon)), if_neg h]

/-- The read of a non-transposed matrix in terms of its backing vector. -/
theorem SparseMat.constAtVal_idx (m : SparseMat) (σ : Store) (i j k : ℤ)
    (hb : ¬(i < 0 ∨ j < 0 ∨ m.rows ≤ i ∨ m.cols ≤ j))
    (htr : m.transposed = false)
    (hk : (m.rowOffset + i) * m.colMax + (m.colOffset + j) = k) :
    m.constAtVal? σ i j = m.values.constAtVal? σ k := by
  unfold SparseMat.constAtVal? SparseMat.indexGo?
  rw [if_neg hb, htr]
  simp only [Bool.false_eq_true, if_false, Option.some_bind]
  rw [hk]

/-- C3 counterexample: Tip on a 1 by 2 matrix with its single entry at (0, 0)
succeeds, but the map-based Swap materializes a nil binding at the backing
index of logical position (1, 0), so the post-Tip read there panics (none),
while the T() view reads the absent mirror cell as 0. The result is not
observably equal to the T view. -/
theorem C3_tip_counterexample :
    (SparseMat.tipGo ⟨⟨⟨[0], true⟩, [(0, some 0)], 2⟩, 1, 2, 0, 1, 0, 2, false,
        NIL_VECTOR 1, NIL_VECTOR 2⟩).map
      (fun M1 => M1.constAtVal? ⟨[(0, NEW_SCALAR 5)], 1⟩ 1 0) = some none ∧
    (SparseMat.T ⟨⟨⟨[0], true⟩, [(0, some 0)], 2⟩, 1, 2, 0, 1, 0, 2, false,
        NIL_VECTOR 1, NIL_VECTOR 2⟩).constAtVal? ⟨[(0, NEW_SCALAR 5)], 1⟩ 1 0
      = some 0 := by
  refine ⟨?_, ?_⟩ <;> decide

/-- C3: on a fresh (non-transposed, unsliced) rows by cols sparse matrix, Tip()
succeeds, swaps the dimensions to cols by rows, and at every logical position
(i, j) whose mirrored source cell (j, i) was occupied by a live scalar the
post-Tip read equals the T() view read; at positions whose mirror was
unoccupied the Tip read may instead panic on a materialized nil binding. -/
theorem C3_tip_equals_T_view (M : SparseMat) (σ : Store)
    (hT : M.transposed = false) (hro : M.rowOffset = 0) (hco : M.colOffset = 0)
    (hrm : M.rowMax = M.rows) (hcm : M.colMax = M.cols)
    (hr : 1 ≤ M.rows) (hc : 1 ≤ M.cols)
    (hmn : M.values.n = M.rows * M.cols) :
    ∃ M1, M.tipGo = some M1 ∧ M1.rows = M.cols ∧ M1.cols = M.rows ∧
      ∀ i j : ℤ, 0 ≤ i → i < M.cols → 0 ≤ j → j < M.rows →
        (M.values.cellD (j * M.cols + i)).isSome →
        M1.constAtVal? σ i j = M.T.constAtVal? σ i j := by
  obtain ⟨M1, htip, hRows, hCols, hRO, hCO, hRM, hCM, hTr, hN, hperm⟩ :=
    tipGo_perm M hr hc hmn
  refine ⟨M1, htip, hRows, hCols, ?_⟩
  intro i j hi0 hi1 hj0 hj1 hocc
  obtain ⟨p, hp⟩ : ∃ p, M.values.cellD (j * M.cols + i) = some p := by
    cases ho : M.values.cellD (j * M.cols + i) with
    | none =>
      rw [ho] at hocc
      simp at hocc
    | some c => exact ⟨c, rfl⟩
  have hk0 : 0 ≤ j * M.cols + i := by
    have := mul_nonneg hj0 (by omega : (0 : ℤ) ≤ M.cols)
    omega
  have hkmn : j * M.cols + i < M.values.n := by
    have hjc : j * M.cols ≤ (M.rows - 1) * M.cols :=
      mul_le_mul_of_nonneg_right (by omega) (by omega)
    have e1 : (M.rows - 1) * M.cols = M.rows * M.cols - M.cols := by ring
    omega
  have hsig : sigmaGo M.rows M.values.n (j * M.cols + i) = i * M.rows + j :=
    sigmaGo_transpose M.rows M.cols M.values.n hr hc hmn i j hi0 hi1 hj0 hj1
  have hsb := sigmaGo_mem M.rows M.values.n (by omega) (j * M.cols + i) hk0 hkmn
  rw [hsig] at hsb
  have hcell1 : M1.values.cellD (i * M.rows + j) = some p := by
    rw [← hsig, hperm (j * M.cols + i) hk0 hkmn]
    exact hp
  rw [T_constAtVal M σ hT i j]
  rw [SparseMat.constAtVal_idx M1 σ i j (i * M.rows + j)
      (by rw [hRows, hCols]; omega) (hTr.trans hT)
      (by rw [hRO, hco, hCM, hrm, hCO, hro]; ring),
    SparseMat.constAtVal_idx M σ j i (j * M.cols + i)
      (by omega) hT (by rw [hro, hcm, hco]; ring)]
  unfold SparseVec.constAtVal?
  rw [if_neg (by rw [hN]; omega), if_neg (by omega)]
  rw [SparseVec.cell_of_cellD_some _ _ _ hcell1,
    SparseVec.cell_of_cellD_some _ _ _ hp]

/-- C3 witness: the theorem at a 1 by 2 matrix whose only entry sits at (0, 0),
so its mirror (0, 0) of the transposed layout is occupied. -/
theorem C3_tip_witness :
    ∃ M1, SparseMat.tipGo ⟨⟨⟨[0], true⟩, [(0, some 0)], 2⟩, 1, 2, 0, 1, 0, 2,
        false, NIL_VECTOR 1, NIL_VECTOR 2⟩ = some M1 ∧
      M1.rows = (⟨⟨⟨[0], true⟩, [(0, some 0)], 2⟩, 1, 2, 0, 1, 0, 2, false,
        NIL_VECTOR 1, NIL_VECTOR 2⟩ : SparseMat).cols ∧
      M1.cols = (⟨⟨⟨[0], true⟩, [(0, some 0)], 2⟩, 1, 2, 0, 1, 0, 2, false,
        NIL_VECTOR 1, NIL_VECTOR 2⟩ : SparseMat).rows ∧
      ∀ i j : ℤ, 0 ≤ i →
        i < (⟨⟨⟨[0], true⟩, [(0, some 0)], 2⟩, 1, 2, 0, 1, 0, 2, false,
          NIL_VECTOR 1, NIL_VECTOR 2⟩ : SparseMat).cols → 0 ≤ j →
        j < (⟨⟨⟨[0], true⟩, [(0, some 0)], 2⟩, 1, 2, 0, 1, 0, 2, false,
          NIL_VECTOR 1, NIL_VECTOR 2⟩ : SparseMat).rows →
        ((⟨⟨⟨[0], true⟩, [(0, some 0)], 2⟩, 1, 2, 0, 1, 0, 2, false,
          NIL_VECTOR 1, NIL_VECTOR 2⟩ : SparseMat).values.cellD
            (j * (⟨⟨⟨[0], true⟩, [(0, some 0)], 2⟩, 1, 2, 0, 1, 0, 2, false,
              NIL_VECTOR 1, NIL_VECTOR 2⟩ : SparseMat).cols + i)).isSome →
        M1.constAtVal? ⟨[(0, NEW_SCALAR 5)], 1⟩ i j
          = (SparseMat.T ⟨⟨⟨[0], true⟩, [(0, some 0)], 2⟩, 1, 2, 0, 1, 0, 2,
              false, NIL_VECTOR 1, NIL_VECTOR 2⟩).constAtVal?
            ⟨[(0, NEW_SCALAR 5)], 1⟩ i j :=
  C3_tip_equals_T_view
    ⟨⟨⟨[0], true⟩, [(0, some 0)], 2⟩, 1, 2, 0, 1, 0, 2, false,
      NIL_VECTOR 1, NIL_VECTOR 2⟩ ⟨[(0, NEW_SCALAR 5)], 1⟩
    rfl rfl rfl rfl rfl (by decide) (by decide) rfl

end Autodiff
